import Mathlib

set_option maxRecDepth 40000

/-!
# Verification of the `sanitize` package (devify-utils)

A shallow embedding of the input-sanitization pipeline of the repository:
`String`, `Hostname`, `Extension`, `FileName`, `DirName`, `Path`, `Url`
and `HasFileExtension` from the `sanitize` Go package.

Modelling conventions:
* A Go string is modelled as a `List Char` (`GoStr`), one element per rune.
  Lengths and slice indices therefore count runes; for the ASCII inputs used
  in all concrete statements below this coincides exactly with Go's byte
  counts, and the spec speaks of length "units".
* Go's `unicode.IsControl` and `unicode.IsSpace` are translated exactly
  (`IsControl` is true only for Latin-1 code points with the control
  property, i.e. U+0000..U+001F and U+007F..U+009F; `IsSpace` is the
  White_Space property).  The regexp class `\s` of Go's RE2 is exactly
  the five characters TAB, LF, FF, CR, SPACE and is translated exactly.
* The Unicode classes `\p{L}` / `\p{N}` and the case mappings
  (`strings.ToLower`, `strings.EqualFold`) are modelled by their ASCII
  fragments (A-Z/a-z, 0-9, A-Z maps to a-z).  Every concrete input in this
  development is ASCII, where the model agrees with Go exactly.
* `os.PathSeparator` is `/` and `filepath.ToSlash` is the identity
  (the Unix build of the package, which is what the repository's tests run).
* A Go runtime panic (out-of-range string slice) is modelled by the
  distinguished error `Err.panic`: `goSlice` checks Go's slice bounds.
* Functions returning `(string, error)` become `GoStr → Except Err GoStr`;
  the `Err` constructors mirror the distinct `errors.New` messages.
* The Go names `String` and `Path` collide with core Lean/Mathlib names,
  so they are rendered `SanString` and `SanPath`.
-/

/-- A Go string, one list element per rune. -/
abbrev GoStr := List Char

/-- Convert a Lean string literal to the Go-string model. -/
def gs (s : String) : GoStr := s.data

/-- The error kinds produced by the sanitize package, one per distinct
`errors.New` call site (plus `panic`, modelling a Go runtime panic). -/
inductive Err : Type where
  | emptyString            -- "sanitized string is empty"
  | invalidHostname        -- "invalid hostname or IP format"
  | emptyExtension         -- "sanitized extension is empty or invalid"
  | emptyFileName          -- "sanitized filename is empty or invalid"
  | emptyBase              -- "filename base is empty"
  | reservedName (base : GoStr)  -- "filename is a reserved name: " + base
  | emptySanitizedBase     -- "sanitized filename base is empty"
  | emptyDirName           -- "directory name is empty"
  | emptySanitizedDirName  -- "sanitized directory name is empty"
  | emptyPath              -- "path is empty"
  | emptySanitizedPath     -- "sanitized path is empty"
  | pathTooLong            -- "sanitized path exceeds maximum length"
  | emptyUrl               -- "sanitized url is empty"
  | invalidUrlFormat       -- "invalid url format"
  | urlMissingProtocol     -- "url must have protocol"
  | panic                  -- Go runtime panic (slice bounds out of range)
  deriving DecidableEq, Repr

deriving instance DecidableEq for Except

/-- Go `unicode.IsControl`: true exactly on the Latin-1 control code points
U+0000..U+001F and U+007F..U+009F (Go returns false above Latin-1,
which coincides with the Unicode Cc category). -/
def goIsControl (c : Char) : Bool :=
  c.toNat ≤ 31 || (127 ≤ c.toNat && c.toNat ≤ 159)

/-- Go `unicode.IsSpace`: the Unicode White_Space property. -/
def goIsSpace (c : Char) : Bool :=
  c.toNat = 9 || c.toNat = 10 || c.toNat = 11 || c.toNat = 12 || c.toNat = 13 ||
  c.toNat = 32 || c.toNat = 133 || c.toNat = 160 || c.toNat = 0x1680 ||
  (0x2000 ≤ c.toNat && c.toNat ≤ 0x200A) ||
  c.toNat = 0x2028 || c.toNat = 0x2029 || c.toNat = 0x202F ||
  c.toNat = 0x205F || c.toNat = 0x3000

/-- The RE2 class `\s` used by `regexp`: exactly TAB, LF, FF, CR, SPACE. -/
def reSpace (c : Char) : Bool :=
  c.toNat = 9 || c.toNat = 10 || c.toNat = 12 || c.toNat = 13 || c.toNat = 32

/-- The class of the regexp `[<>{}|\\^~]` in `String`
(the two brace characters are written via their code points 123 and 125). -/
def unsafeChar (c : Char) : Bool :=
  c = '<' || c = '>' || c.toNat = 123 || c.toNat = 125 ||
  c = '|' || c.toNat = 92 || c = '^' || c = '~'

/-- ASCII fragment of the Unicode class `\p{L}`. -/
def isUniLetter (c : Char) : Bool :=
  (65 ≤ c.toNat && c.toNat ≤ 90) || (97 ≤ c.toNat && c.toNat ≤ 122)

/-- ASCII fragment of the Unicode class `\p{N}`. -/
def isUniDigit (c : Char) : Bool :=
  48 ≤ c.toNat && c.toNat ≤ 57

/-- ASCII fragment of Go `unicode.ToLower` (as applied rune-wise by
`strings.ToLower`). -/
def goToLower (c : Char) : Char :=
  if 65 ≤ c.toNat ∧ c.toNat ≤ 90 then Char.ofNat (c.toNat + 32) else c

/-- Go `strings.EqualFold`, in its ASCII fragment: equality after
rune-wise lowering. -/
def equalFold (a b : GoStr) : Bool :=
  a.map goToLower == b.map goToLower

/-- Two-sided trimming: drop runes satisfying `p` from both ends
(the common shape of Go `strings.TrimSpace` and `strings.Trim`). -/
def goTrim (p : Char → Bool) (l : GoStr) : GoStr :=
  ((l.dropWhile p).reverse.dropWhile p).reverse

/-- Go `strings.TrimSpace`: drop `unicode.IsSpace` runes from both ends. -/
def trimSpace (l : GoStr) : GoStr :=
  goTrim goIsSpace l

/-- Go `strings.Trim(s, cutset)`: drop runes of `cutset` from both ends. -/
def trimChar (cutset : List Char) (l : GoStr) : GoStr :=
  goTrim (fun c => cutset.contains c) l

/-- State-machine core of run collapsing: `inRun` records whether the
previous rune matched `p`. -/
def collapseAux (p : Char → Bool) (rep : Char) : Bool → GoStr → GoStr
  | _, [] => []
  | inRun, c :: cs =>
    if p c then
      if inRun then collapseAux p rep true cs
      else rep :: collapseAux p rep true cs
    else c :: collapseAux p rep false cs

/-- `regexp.MustCompile(class+).ReplaceAllString(s, rep)` for a one-rune
replacement: every maximal run of runes matching `p` becomes the single
rune `rep`. -/
def collapseRuns (p : Char → Bool) (rep : Char) (l : GoStr) : GoStr :=
  collapseAux p rep false l

/-- Go `strings.Split(s, sep)` for a one-rune separator. -/
def goSplit (sep : Char) : GoStr → List GoStr
  | [] => [[]]
  | c :: cs =>
    if c = sep then [] :: goSplit sep cs
    else
      match goSplit sep cs with
      | [] => [[c]]
      | p :: ps => (c :: p) :: ps

/-- Go `filepath.Ext`: the suffix of `s` starting at the final dot in the
final path element (empty if that element has no dot). -/
def goExt (s : GoStr) : GoStr :=
  let tailRev := s.reverse.takeWhile (fun c => c ≠ '/')
  if tailRev.contains '.' then
    '.' :: (tailRev.takeWhile (fun c => c ≠ '.')).reverse
  else []

/-- Go `strings.TrimSuffix`. -/
def goTrimSuffix (s suffix : GoStr) : GoStr :=
  if suffix.isSuffixOf s then s.take (s.length - suffix.length) else s

/-- Go `filepath.Base` (Unix): strip trailing separators, then keep what
follows the last separator; empty input gives `.`, all-separator input
gives `/`.  (Written on the reversed list: drop trailing `/` runes, then
take up to the next `/`.) -/
def goBase (path : GoStr) : GoStr :=
  if path = [] then gs (r".")
  else
    if ((path.reverse.dropWhile (fun c => c = '/')).takeWhile
        (fun c => c ≠ '/')).reverse = [] then gs (r"/")
    else ((path.reverse.dropWhile (fun c => c = '/')).takeWhile
        (fun c => c ≠ '/')).reverse

/-- Go string slicing `s[:k]` with Go's bounds rule: panics unless
`0 ≤ k ≤ len(s)`. -/
def goSlice (s : GoStr) (k : Int) : Except Err GoStr :=
  if 0 ≤ k ∧ k ≤ (s.length : Int) then .ok (s.take k.toNat) else .error .panic

/-- One step of `Clean`'s component walk: `..` pops a previous component
unless the path is relative and only `..`s (or nothing) precede; rooted
paths cannot pop past the root; every other component is kept. -/
def cleanStep (rooted : Bool) (acc : List GoStr) (c : GoStr) : List GoStr :=
  if c = gs (r"..") then
    if rooted then acc.dropLast
    else if acc = [] then acc ++ [c]
    else if acc.getLast? = some (gs (r"..")) then acc ++ [c]
    else acc.dropLast
  else acc ++ [c]

/-- Go `path/filepath.Clean` (Unix), expressed on the split component list:
drop empty and `.` components, walk the rest with `cleanStep`, and rejoin. -/
def pathClean (p : GoStr) : GoStr :=
  if p = [] then gs (r".")
  else
    let rooted : Bool := p.head? = some '/'
    let comps := (goSplit '/' p).filter (fun c => c ≠ [] ∧ c ≠ gs (r"."))
    let out := comps.foldl (cleanStep rooted) []
    if rooted then
      if out = [] then gs (r"/") else '/' :: (gs (r"/")).intercalate out
    else
      if out = [] then gs (r".") else (gs (r"/")).intercalate out

/-- Go `filepath.Join` (Unix): join the elements from the first non-empty
one with `/` and `Clean` the result; all-empty gives the empty string. -/
def goJoin (elems : List GoStr) : GoStr :=
  match elems.dropWhile (fun e => e = []) with
  | [] => []
  | rest => pathClean ((gs (r"/")).intercalate rest)

/-- `sanitize.String`. -/
def SanString (input : GoStr) : Except Err GoStr :=
  let noCtl := input.filter (fun c => !goIsControl c)
  let replaced := noCtl.map (fun c => if unsafeChar c then ' ' else c)
  let trimmed := trimSpace replaced
  let collapsed := collapseRuns reSpace ' ' trimmed
  if collapsed = [] then .error .emptyString else .ok collapsed

/-- The class of the hostname regexp `[a-zA-Z0-9.-]`. -/
def hostChar (c : Char) : Bool :=
  isUniLetter c || isUniDigit c || c = '.' || c = '-'

/-- The hostname regexp `^[a-zA-Z0-9.-]+$`. -/
def hostRegexMatch (l : GoStr) : Bool :=
  !l.isEmpty && l.all hostChar

/-- `sanitize.Hostname`. -/
def Hostname (input : GoStr) : Except Err GoStr :=
  match SanString input with
  | .error e => .error e
  | .ok result =>
    if hostRegexMatch result then .ok result else .error .invalidHostname

/-- The class kept by `Extension`'s regexp `[^\p{L}\p{N}.]` removal. -/
def extKeep (c : Char) : Bool :=
  isUniLetter c || isUniDigit c || c = '.'

/-- `sanitize.Extension`. -/
def Extension (ext : GoStr) : Except Err GoStr :=
  let ext := (trimSpace ext).map goToLower
  let ext := ext.filter extKeep
  let ext := if (gs (r".")).isPrefixOf ext then ext else '.' :: ext
  let parts := goSplit '.' ext
  let ext := if parts.length > 2 then '.' :: parts.getLastD [] else ext
  if ext = gs (r".") ∨ ext = [] then .error .emptyExtension else .ok ext

/-- The reserved device names checked by `FileName`. -/
def reservedNames : List GoStr :=
  [gs (r"CON"), gs (r"PRN"), gs (r"AUX"), gs (r"NUL"),
   gs (r"COM1"), gs (r"COM2"), gs (r"COM3"), gs (r"COM4"), gs (r"COM5"),
   gs (r"COM6"), gs (r"COM7"), gs (r"COM8"), gs (r"COM9"),
   gs (r"LPT1"), gs (r"LPT2"), gs (r"LPT3"), gs (r"LPT4"), gs (r"LPT5"),
   gs (r"LPT6"), gs (r"LPT7"), gs (r"LPT8"), gs (r"LPT9")]

/-- The class kept by the filename/dirname regexp `[^\p{L}\p{N}_-]` removal. -/
def fnameKeep (c : Char) : Bool :=
  isUniLetter c || isUniDigit c || c = '_' || c = '-'

/-- The rune predicate of the `strings.Map` pass in `FileName`/`DirName`:
dropped iff `r < 32 || r == 127`. -/
def ctlByte (c : Char) : Bool :=
  c.toNat < 32 || c.toNat = 127

/-- `sanitize.FileName`. -/
def FileName (filename : GoStr) : Except Err GoStr :=
  if filename = gs (r".") then .error .emptyFileName else
  let ext := goExt filename
  let base := trimSpace (goTrimSuffix filename ext)
  if base = [] then .error .emptyBase else
  if reservedNames.any (fun s => equalFold base s) then .error (.reservedName base) else
  let base := base.filter fnameKeep
  let base := base.filter (fun c => !ctlByte c)
  let base := collapseRuns (fun c => c = '_') '_' base
  let base := trimChar ['_'] base
  if base = [] then .error .emptySanitizedBase else
  match (if ext ≠ [] then Extension ext else .ok []) with
  | .error e => .error e
  | .ok sanitizedExt =>
    let fname := base ++ sanitizedExt
    match (if fname.length > 255 then
             (goSlice fname ((255 : Int) - sanitizedExt.length)).map
               (fun b => b ++ sanitizedExt)
           else .ok fname) with
    | .error e => .error e
    | .ok fname =>
      if fname = [] ∨ fname = gs (r".") then .error .emptyFileName else .ok fname

/-- `sanitize.DirName`. -/
def DirName (dirname : GoStr) : Except Err GoStr :=
  let dirname := trimSpace dirname
  let dirname := trimChar ['/', Char.ofNat 92] dirname
  if dirname = [] then .error .emptyDirName else
  let dirname :=
    if (gs (r".")).isPrefixOf dirname then
      gs (r"dir_") ++ dirname.dropWhile (fun c => c = '.')
    else dirname
  let dirname := dirname.filter fnameKeep
  let dirname := dirname.filter (fun c => !ctlByte c)
  let dirname := collapseRuns (fun c => c = '_') '_' dirname
  let dirname := trimChar ['_'] dirname
  if dirname = [] then .error .emptySanitizedDirName else
  .ok (if dirname.length > 255 then dirname.take 255 else dirname)

/-- `sanitize.HasFileExtension`. -/
def HasFileExtension (comp : GoStr) : Bool :=
  goExt comp ≠ [] && goExt comp ≠ comp

/-- The components appended by `Path`'s per-component loop: empty
components are skipped, `.`/`..` pass through, the last component with a
file-like extension goes through `FileName`, all others through
`DirName`; a sanitizer *error return* drops the component (`continue`). -/
def keptComps (components : List GoStr) : List GoStr :=
  components.enum.filterMap (fun ic =>
    if ic.2 = [] then none
    else if ic.2 = gs (r".") ∨ ic.2 = gs (r"..") then some ic.2
    else if ic.1 = components.length - 1 ∧ HasFileExtension ic.2 then
      (FileName ic.2).toOption
    else (DirName ic.2).toOption)

/-- Whether some sanitizer call made by `Path`'s per-component loop panics
at runtime (modelled as the `.error .panic` value).  The loop's
`if err != nil ... continue` catches only error returns: a panic inside
`FileName` or `DirName` aborts the whole `Path` call.  The components are
processed independently and a panic is the loop's only early exit, so the
loop panics exactly when some non-skipped component's sanitizer call
does. -/
def compPanic (components : List GoStr) : Bool :=
  components.enum.any (fun ic =>
    !(decide (ic.2 = []) || decide (ic.2 = gs (r".")) ||
      decide (ic.2 = gs (r".."))) &&
    (if ic.1 = components.length - 1 ∧ HasFileExtension ic.2 then
      decide (FileName ic.2 = .error .panic)
    else decide (DirName ic.2 = .error .panic)))

/-- `sanitize.Path` (the Go name `Path` collides with Mathlib). -/
def SanPath (path : GoStr) (allowNav : Bool) : Except Err GoStr :=
  let hasLeadingDotSlash := (gs (r"./")).isPrefixOf path
  let hasLeadingParentSlash := (gs (r"../")).isPrefixOf path
  let path := trimSpace path
  if path = [] then .error .emptyPath else
  let slashedPath := path
  let isAbs := (gs (r"/")).isPrefixOf slashedPath
  let components := goSplit '/' slashedPath
  if compPanic components then .error .panic else
  let cleanComponents := keptComps components
  let relativePath := goJoin cleanComponents
  let relativePath := pathClean relativePath
  let relativePath := if relativePath = gs (r".") then [] else relativePath
  let finalPath := if isAbs then '/' :: relativePath else relativePath
  if finalPath = [] ∨ finalPath = gs (r".") ∨ finalPath = gs (r"/") then
    .error .emptySanitizedPath
  else
    let finalPath :=
      if allowNav then
        if hasLeadingDotSlash ∧ ¬ (gs (r"./")).isPrefixOf finalPath then
          '.' :: '/' :: finalPath
        else if hasLeadingParentSlash ∧ ¬ (gs (r"../")).isPrefixOf finalPath then
          '.' :: '.' :: '/' :: finalPath
        else finalPath
      else finalPath
    if finalPath.length > 4096 then .error .pathTooLong else
    .ok (if !HasFileExtension (goBase finalPath) then finalPath ++ ['/']
         else finalPath)

/-- The cleaned relative part of `Path` (the `relativePath` variable after
the `.`-collapse step), named for use in proofs. -/
def pathRel (p : GoStr) : GoStr :=
  if pathClean (goJoin (keptComps (goSplit '/' (trimSpace p)))) = gs (r".")
  then []
  else pathClean (goJoin (keptComps (goSplit '/' (trimSpace p))))

/-- The `finalPath` variable of `Path` before navigation reattachment. -/
def pathFinal0 (p : GoStr) : GoStr :=
  if (gs (r"/")).isPrefixOf (trimSpace p) then '/' :: pathRel p else pathRel p

/-- The `finalPath` variable of `Path` after navigation reattachment. -/
def pathNav (p : GoStr) (allowNav : Bool) (f : GoStr) : GoStr :=
  if allowNav then
    if (gs (r"./")).isPrefixOf p ∧ ¬ (gs (r"./")).isPrefixOf f then
      '.' :: '/' :: f
    else if (gs (r"../")).isPrefixOf p ∧ ¬ (gs (r"../")).isPrefixOf f then
      '.' :: '.' :: '/' :: f
    else f
  else f

/-- The class of the URL regexp host part `[a-zA-Z0-9.-]`. -/
def uhostChar (c : Char) : Bool :=
  isUniLetter c || isUniDigit c || c = '.' || c = '-'

/-- The class of the URL regexp path part: Unicode letters and digits plus
underscore, dot, slash and hyphen. -/
def upathChar (c : Char) : Bool :=
  isUniLetter c || isUniDigit c || c = '_' || c = '.' || c = '/' || c = '-'

/-- The class of the URL regexp query part: the path classes plus the
ampersand, equals and question-mark characters. -/
def uqueryChar (c : Char) : Bool :=
  isUniLetter c || isUniDigit c || c = '_' || c = '.' || c = '/' ||
  c = '&' || c = '=' || c = '?' || c = '-'

/-- The URL regexp
`^(https?://)?[a-zA-Z0-9.-]+(\.[a-zA-Z0-9.-]+)*(/[pc]*(\?[qc]*)?)?$`.
Since `.` belongs to the host class, `X+(\.X+)*` is equivalent to `X+`,
and since the host class excludes `/` and `:` the match is deterministic:
strip an explicit protocol, take the maximal host run, then an optional
path run starting with `/`, then an optional query after `?`. -/
def urlRegexMatch (l : GoStr) : Bool :=
  let body :=
    if (gs (r"https://")).isPrefixOf l then l.drop 8
    else if (gs (r"http://")).isPrefixOf l then l.drop 7
    else l
  let host := body.takeWhile uhostChar
  let rest := body.dropWhile uhostChar
  !host.isEmpty &&
  (match rest with
   | [] => true
   | c :: _ =>
     c = '/' &&
     (match rest.dropWhile upathChar with
      | [] => true
      | q :: qs => q = '?' && qs.all uqueryChar))

/-- `sanitize.Url`; the Go variadic `requireProtocol ...bool` (default
`true`) becomes an explicit `Bool` argument. -/
def Url (input : GoStr) (reqProto : Bool) : Except Err GoStr :=
  let result := trimSpace (input.filter (fun c => !goIsControl c))
  if result = [] then .error .emptyUrl else
  if !urlRegexMatch result then .error .invalidUrlFormat else
  if reqProto &&
     !((gs (r"http://")).isPrefixOf (result.map goToLower) ||
       (gs (r"https://")).isPrefixOf (result.map goToLower)) then
    .error .urlMissingProtocol
  else .ok result

/-- A 300-rune string of repeated `ab_` groups (a `DirName` input whose
255-truncation ends in an underscore). -/
def dcx : GoStr := (List.replicate 100 (gs (r"ab_"))).flatten

/-- The 255-rune `DirName` output for [[dcx]]. -/
def dcy : GoStr := (List.replicate 85 (gs (r"ab_"))).flatten

/-- The 254-rune `DirName` output for [[dcy]]. -/
def dcz : GoStr := (List.replicate 84 (gs (r"ab_"))).flatten ++ gs (r"ab")

/-- A 240-rune directory component. -/
def bigComp : GoStr := List.replicate 240 'a'

/-- A 4096-rune path of seventeen [[bigComp]] components: `Path`'s length
check passes (4096 is not over the limit) and the trailing separator then
yields a 4097-rune result. -/
def bigPath : GoStr := (gs (r"/")).intercalate (List.replicate 17 bigComp)

/-! ## Helper lemmas: characters -/

theorem toNat_ofNat_valid {n : Nat} (h : n < 55296) : (Char.ofNat n).toNat = n := by
  have hv : n.isValidChar := Or.inl h
  simp [Char.ofNat, hv, Char.ofNatAux, Char.toNat, UInt32.toNat, UInt32.ofNatCore]

theorem goToLower_idem (c : Char) : goToLower (goToLower c) = goToLower c := by
  unfold goToLower
  split
  · next h =>
    have h2 : (Char.ofNat (c.toNat + 32)).toNat = c.toNat + 32 :=
      toNat_ofNat_valid (by omega)
    rw [if_neg]
    omega
  · rfl

theorem reSpace_isSpace {c : Char} (h : reSpace c = true) : goIsSpace c = true := by
  simp [reSpace] at h
  simp [goIsSpace]
  omega

theorem fnameKeep_toNat {c : Char} (h : fnameKeep c = true) :
    (65 ≤ c.toNat ∧ c.toNat ≤ 90) ∨ (97 ≤ c.toNat ∧ c.toNat ≤ 122) ∨
    (48 ≤ c.toNat ∧ c.toNat ≤ 57) ∨ c.toNat = 95 ∨ c.toNat = 45 := by
  simp only [fnameKeep, isUniLetter, isUniDigit, Bool.or_eq_true, Bool.and_eq_true,
    decide_eq_true_eq] at h
  rcases h with (((h | h) | h) | h) | h
  · exact Or.inl h
  · exact Or.inr (Or.inl h)
  · exact Or.inr (Or.inr (Or.inl h))
  · subst h; exact Or.inr (Or.inr (Or.inr (Or.inl rfl)))
  · subst h; exact Or.inr (Or.inr (Or.inr (Or.inr rfl)))

theorem fnameKeep_facts {c : Char} (h : fnameKeep c = true) :
    goIsControl c = false ∧ goIsSpace c = false ∧ c ≠ '/' ∧ c ≠ '.' := by
  have hn := fnameKeep_toNat h
  refine ⟨?_, ?_, ?_, ?_⟩
  · simp [goIsControl]; omega
  · simp [goIsSpace]; omega
  · intro hc; subst hc; exact absurd hn (by decide)
  · intro hc; subst hc; exact absurd hn (by decide)

theorem extKeep_toNat {c : Char} (h : extKeep c = true) :
    (65 ≤ c.toNat ∧ c.toNat ≤ 90) ∨ (97 ≤ c.toNat ∧ c.toNat ≤ 122) ∨
    (48 ≤ c.toNat ∧ c.toNat ≤ 57) ∨ c.toNat = 46 := by
  simp only [extKeep, isUniLetter, isUniDigit, Bool.or_eq_true, Bool.and_eq_true,
    decide_eq_true_eq] at h
  rcases h with ((h | h) | h) | h
  · exact Or.inl h
  · exact Or.inr (Or.inl h)
  · exact Or.inr (Or.inr (Or.inl h))
  · subst h; exact Or.inr (Or.inr (Or.inr rfl))

theorem extKeep_facts {c : Char} (h : extKeep c = true) :
    goIsControl c = false ∧ goIsSpace c = false := by
  have hn := extKeep_toNat h
  constructor
  · simp [goIsControl]; omega
  · simp [goIsSpace]; omega

theorem hostChar_toNat {c : Char} (h : hostChar c = true) :
    (65 ≤ c.toNat ∧ c.toNat ≤ 90) ∨ (97 ≤ c.toNat ∧ c.toNat ≤ 122) ∨
    (48 ≤ c.toNat ∧ c.toNat ≤ 57) ∨ c.toNat = 46 ∨ c.toNat = 45 := by
  simp only [hostChar, isUniLetter, isUniDigit, Bool.or_eq_true, Bool.and_eq_true,
    decide_eq_true_eq] at h
  rcases h with (((h | h) | h) | h) | h
  · exact Or.inl h
  · exact Or.inr (Or.inl h)
  · exact Or.inr (Or.inr (Or.inl h))
  · subst h; exact Or.inr (Or.inr (Or.inr (Or.inl rfl)))
  · subst h; exact Or.inr (Or.inr (Or.inr (Or.inr rfl)))

theorem hostChar_facts {c : Char} (h : hostChar c = true) :
    goIsControl c = false ∧ goIsSpace c = false ∧ reSpace c = false ∧
    unsafeChar c = false := by
  have hn := hostChar_toNat h
  refine ⟨?_, ?_, ?_, ?_⟩
  · simp [goIsControl]; omega
  · simp [goIsSpace]; omega
  · simp [reSpace]; omega
  · simp only [unsafeChar, Bool.or_eq_false_iff, decide_eq_false_iff_not]
    refine ⟨⟨⟨⟨⟨⟨⟨?_, ?_⟩, ?_⟩, ?_⟩, ?_⟩, ?_⟩, ?_⟩, ?_⟩ <;>
      first
      | omega
      | (intro hc; subst hc; exact absurd hn (by decide))

/-! ## Helper lemmas: dropWhile / trimming -/

theorem dropWhile_eq_self_of_none {α : Type} {p : α → Bool} {l : List α}
    (h : ∀ c ∈ l, p c = false) : l.dropWhile p = l := by
  cases l with
  | nil => rfl
  | cons c cs =>
    rw [List.dropWhile_cons, if_neg]
    simp [h c (by simp)]

theorem head?_dropWhile {p : Char → Bool} {l : GoStr} {c : Char}
    (h : (l.dropWhile p).head? = some c) : p c = false := by
  induction l with
  | nil => simp at h
  | cons d ds ih =>
    rw [List.dropWhile_cons] at h
    by_cases hd : p d
    · rw [if_pos hd] at h; exact ih h
    · rw [if_neg hd] at h
      simp at h
      subst h
      simpa using hd

theorem mem_of_mem_dropWhile {p : Char → Bool} {l : GoStr} {c : Char}
    (h : c ∈ l.dropWhile p) : c ∈ l :=
  (List.dropWhile_suffix p).subset h

theorem mem_of_mem_goTrim {p : Char → Bool} {l : GoStr} {c : Char}
    (h : c ∈ goTrim p l) : c ∈ l := by
  unfold goTrim at h
  rw [List.mem_reverse] at h
  have h2 := mem_of_mem_dropWhile h
  rw [List.mem_reverse] at h2
  exact mem_of_mem_dropWhile h2

theorem goTrim_eq_self_of_none {p : Char → Bool} {l : GoStr}
    (h : ∀ c ∈ l, p c = false) : goTrim p l = l := by
  unfold goTrim
  rw [dropWhile_eq_self_of_none h, dropWhile_eq_self_of_none (by
    intro c hc
    rw [List.mem_reverse] at hc
    exact h c hc), List.reverse_reverse]

theorem goTrim_head? {p : Char → Bool} {l : GoStr} {c : Char}
    (h : (goTrim p l).head? = some c) : p c = false := by
  have hpre : goTrim p l <+: l.dropWhile p := by
    unfold goTrim
    rw [← List.reverse_reverse (l.dropWhile p), List.reverse_prefix,
      List.reverse_reverse]
    exact List.dropWhile_suffix p
  obtain ⟨t, ht⟩ := hpre
  apply head?_dropWhile (l := l)
  rw [← ht]
  cases hgt : goTrim p l with
  | nil => rw [hgt] at h; simp at h
  | cons d ds =>
    rw [hgt] at h
    simp at h ⊢
    exact h

theorem goTrim_getLast? {p : Char → Bool} {l : GoStr} {c : Char}
    (h : (goTrim p l).getLast? = some c) : p c = false := by
  unfold goTrim at h
  rw [List.getLast?_reverse] at h
  exact head?_dropWhile h

theorem goTrim_eq_self {p : Char → Bool} {l : GoStr}
    (h1 : ∀ c, l.head? = some c → p c = false)
    (h2 : ∀ c, l.getLast? = some c → p c = false) : goTrim p l = l := by
  unfold goTrim
  have hl : l.dropWhile p = l := by
    cases l with
    | nil => rfl
    | cons d ds => rw [List.dropWhile_cons, if_neg (by simp [h1 d rfl])]
  rw [hl]
  have hr : l.reverse.dropWhile p = l.reverse := by
    cases hrev : l.reverse with
    | nil => rfl
    | cons d ds =>
      rw [List.dropWhile_cons, if_neg ?_]
      have : l.reverse.head? = some d := by rw [hrev]; rfl
      rw [List.head?_reverse] at this
      simp [h2 d this]
  rw [hr, List.reverse_reverse]

/-! ## Helper lemmas: run collapsing -/

theorem map_id_of {f : Char → Char} {l : GoStr} (h : ∀ c ∈ l, f c = c) :
    l.map f = l := by
  induction l with
  | nil => rfl
  | cons c cs ih =>
    simp only [List.map_cons, h c (by simp), ih (fun d hd => h d (by simp [hd]))]

theorem mem_collapseAux {p : Char → Bool} {rep : Char} {b : Bool} {l : GoStr}
    {c : Char} (h : c ∈ collapseAux p rep b l) :
    c = rep ∨ (c ∈ l ∧ p c = false) := by
  induction l generalizing b with
  | nil => simp [collapseAux] at h
  | cons d ds ih =>
    unfold collapseAux at h
    by_cases hd : p d
    · rw [if_pos hd] at h
      by_cases hb : b
      · rw [if_pos hb] at h
        rcases ih h with h1 | h1
        · exact Or.inl h1
        · exact Or.inr ⟨by simp [h1.1], h1.2⟩
      · rw [if_neg hb] at h
        rcases List.mem_cons.mp h with h1 | h1
        · exact Or.inl h1
        · rcases ih h1 with h2 | h2
          · exact Or.inl h2
          · exact Or.inr ⟨by simp [h2.1], h2.2⟩
    · rw [if_neg hd] at h
      rcases List.mem_cons.mp h with h1 | h1
      · subst h1; exact Or.inr ⟨by simp, by simpa using hd⟩
      · rcases ih h1 with h2 | h2
        · exact Or.inl h2
        · exact Or.inr ⟨by simp [h2.1], h2.2⟩

theorem collapseAux_eq_self {p : Char → Bool} {rep : Char} {b : Bool}
    {l : GoStr} (h : ∀ c ∈ l, p c = false) : collapseAux p rep b l = l := by
  induction l generalizing b with
  | nil => rfl
  | cons d ds ih =>
    unfold collapseAux
    rw [if_neg (by simp [h d (by simp)])]
    rw [ih (fun c hc => h c (by simp [hc]))]

theorem collapseRuns_eq_self {p : Char → Bool} {rep : Char} {l : GoStr}
    (h : ∀ c ∈ l, p c = false) : collapseRuns p rep l = l :=
  collapseAux_eq_self h

theorem collapseAux_cons (p : Char → Bool) (rep : Char) (b : Bool) (c : Char)
    (cs : GoStr) :
    collapseAux p rep b (c :: cs) =
      if p c then
        (if b then collapseAux p rep true cs else rep :: collapseAux p rep true cs)
      else c :: collapseAux p rep false cs := rfl

theorem collapseAux_true_eq {p : Char → Bool} {rep : Char} (l : GoStr) :
    collapseAux p rep true l = collapseRuns p rep (l.dropWhile p) := by
  induction l with
  | nil => rfl
  | cons d ds ih =>
    by_cases hd : p d
    · rw [collapseAux_cons, if_pos hd, if_pos rfl, List.dropWhile_cons, if_pos hd, ih]
    · unfold collapseRuns
      rw [collapseAux_cons, if_neg hd, List.dropWhile_cons, if_neg hd,
        collapseAux_cons, if_neg hd]

theorem collapseRuns_cons_neg {p : Char → Bool} {rep : Char} {d : Char}
    {ds : GoStr} (hd : p d = false) :
    collapseRuns p rep (d :: ds) = d :: collapseRuns p rep ds := by
  show collapseAux p rep false (d :: ds) = d :: collapseAux p rep false ds
  rw [collapseAux_cons, if_neg (by simp [hd])]

theorem collapseRuns_cons_pos {p : Char → Bool} {rep : Char} {d : Char}
    {ds : GoStr} (hd : p d = true) :
    collapseRuns p rep (d :: ds) = rep :: collapseRuns p rep (ds.dropWhile p) := by
  show collapseAux p rep false (d :: ds) = _
  rw [collapseAux_cons, if_pos hd, if_neg (by simp), collapseAux_true_eq]

theorem collapseRuns_ne_nil {p : Char → Bool} {rep : Char} {l : GoStr}
    (h : l ≠ []) : collapseRuns p rep l ≠ [] := by
  cases l with
  | nil => exact absurd rfl h
  | cons d ds =>
    by_cases hd : p d
    · rw [collapseRuns_cons_pos hd]; simp
    · rw [collapseRuns_cons_neg (by simpa using hd)]; simp

theorem collapseRuns_idem {p : Char → Bool} {rep : Char} (hrep : p rep = true) :
    ∀ n (l : GoStr), l.length ≤ n →
      collapseRuns p rep (collapseRuns p rep l) = collapseRuns p rep l := by
  intro n
  induction n with
  | zero =>
    intro l hl
    have : l = [] := List.length_eq_zero.mp (Nat.le_zero.mp hl)
    subst this; rfl
  | succ n ih =>
    intro l hl
    cases l with
    | nil => rfl
    | cons d ds =>
      by_cases hd : p d
      · rw [collapseRuns_cons_pos hd]
        rw [collapseRuns_cons_pos hrep]
        have hdw : (collapseRuns p rep (ds.dropWhile p)).dropWhile p =
            collapseRuns p rep (ds.dropWhile p) := by
          cases ht : ds.dropWhile p with
          | nil => rfl
          | cons e es =>
            have he : p e = false := by
              apply head?_dropWhile (l := ds) (p := p)
              rw [ht]; rfl
            rw [collapseRuns_cons_neg he, List.dropWhile_cons, if_neg (by simp [he])]
        rw [hdw]
        have hlen : (ds.dropWhile p).length ≤ n := by
          have h1 := ((List.dropWhile_suffix p (l := ds)).sublist).length_le
          simp at hl
          omega
        rw [ih _ hlen]
      · have hd2 : p d = false := by simpa using hd
        rw [collapseRuns_cons_neg hd2, collapseRuns_cons_neg hd2]
        have hlen : ds.length ≤ n := by simp at hl; omega
        rw [ih _ hlen]

theorem collapseRuns_getLast? {p : Char → Bool} {rep : Char} :
    ∀ n (l : GoStr), l.length ≤ n → ∀ {a : Char}, l.getLast? = some a →
      p a = false → (collapseRuns p rep l).getLast? = some a := by
  intro n
  induction n with
  | zero =>
    intro l hl a ha hpa
    have : l = [] := List.length_eq_zero.mp (Nat.le_zero.mp hl)
    subst this; simp at ha
  | succ n ih =>
    intro l hl a ha hpa
    cases l with
    | nil => simp at ha
    | cons d ds =>
      by_cases hne : ds = []
      · subst hne
        simp at ha
        subst ha
        rw [collapseRuns_cons_neg hpa]
        rfl
      · have htail : ds.getLast? = some a := by
          rw [List.getLast?_cons] at ha
          cases hgl : ds.getLast? with
          | none => exact absurd (List.getLast?_eq_none_iff.mp hgl) hne
          | some b => rw [hgl] at ha; simp at ha; rw [ha]
        by_cases hd : p d
        · have hdnil : ds.dropWhile p ≠ [] := by
            intro hcon
            have hall := List.dropWhile_eq_nil_iff.mp hcon
            have hmem : a ∈ ds := List.mem_of_mem_getLast? htail
            rw [hall a hmem] at hpa
            simp at hpa
          have hdlast : (ds.dropWhile p).getLast? = some a := by
            obtain ⟨pre, hpre⟩ := List.dropWhile_suffix (l := ds) p
            rw [← hpre, List.getLast?_append] at htail
            cases hg : (ds.dropWhile p).getLast? with
            | none => exact absurd (List.getLast?_eq_none_iff.mp hg) hdnil
            | some b =>
              rw [hg] at htail
              simp at htail
              rw [htail]
          have hlen : (ds.dropWhile p).length ≤ n := by
            have h1 := ((List.dropWhile_suffix p (l := ds)).sublist).length_le
            simp at hl
            omega
          have hih := ih _ hlen hdlast hpa
          rw [collapseRuns_cons_pos hd, List.getLast?_cons, hih]
          simp
        · have hd2 : p d = false := by simpa using hd
          have hlen : ds.length ≤ n := by simp at hl; omega
          have hih := ih _ hlen htail hpa
          rw [collapseRuns_cons_neg hd2, List.getLast?_cons, hih]
          simp

/-! ## Helper lemmas: splitting and joining -/

theorem goSplit_cons (sep c : Char) (cs : GoStr) :
    goSplit sep (c :: cs) =
      if c = sep then [] :: goSplit sep cs
      else
        match goSplit sep cs with
        | [] => [[c]]
        | p :: ps => (c :: p) :: ps := rfl

theorem goSplit_ne_nil (sep : Char) (l : GoStr) : goSplit sep l ≠ [] := by
  cases l with
  | nil => simp [goSplit]
  | cons c cs =>
    rw [goSplit_cons]
    by_cases hc : c = sep
    · rw [if_pos hc]; simp
    · rw [if_neg hc]
      cases goSplit sep cs <;> simp

theorem goSplit_cons_sep (sep : Char) (cs : GoStr) :
    goSplit sep (sep :: cs) = [] :: goSplit sep cs := by
  rw [goSplit_cons, if_pos rfl]

theorem goSplit_exists_cons (sep : Char) (cs : GoStr) :
    ∃ p ps, goSplit sep cs = p :: ps := by
  cases h : goSplit sep cs with
  | nil => exact absurd h (goSplit_ne_nil sep cs)
  | cons p ps => exact ⟨p, ps, rfl⟩

theorem goSplit_cons_ne {sep c : Char} {cs : GoStr} (hc : c ≠ sep) {p : GoStr}
    {ps : List GoStr} (h : goSplit sep cs = p :: ps) :
    goSplit sep (c :: cs) = (c :: p) :: ps := by
  rw [goSplit_cons, if_neg hc, h]

theorem goSplit_no_sep (sep : Char) (l : GoStr) :
    ∀ part ∈ goSplit sep l, sep ∉ part := by
  induction l with
  | nil =>
    intro part hp
    simp [goSplit] at hp
    simp [hp]
  | cons c cs ih =>
    intro part hp
    by_cases hc : c = sep
    · subst hc
      rw [goSplit_cons_sep] at hp
      rcases List.mem_cons.mp hp with h | h
      · simp [h]
      · exact ih part h
    · obtain ⟨p, ps, hsp⟩ := goSplit_exists_cons sep cs
      rw [goSplit_cons_ne hc hsp] at hp
      rcases List.mem_cons.mp hp with h | h
      · subst h
        intro hmem
        rcases List.mem_cons.mp hmem with h1 | h1
        · exact hc h1.symm
        · exact ih p (by rw [hsp]; simp) h1
      · exact ih part (by rw [hsp]; simp [h])

theorem mem_of_mem_goSplit {sep : Char} {l part : GoStr} {c : Char}
    (hp : part ∈ goSplit sep l) (hc : c ∈ part) : c ∈ l := by
  induction l generalizing part with
  | nil =>
    simp [goSplit] at hp
    subst hp
    simp at hc
  | cons d ds ih =>
    by_cases hd : d = sep
    · subst hd
      rw [goSplit_cons_sep] at hp
      rcases List.mem_cons.mp hp with h | h
      · subst h; simp at hc
      · exact List.mem_cons_of_mem _ (ih h hc)
    · obtain ⟨p, ps, hsp⟩ := goSplit_exists_cons sep ds
      rw [goSplit_cons_ne hd hsp] at hp
      rcases List.mem_cons.mp hp with h | h
      · subst h
        rcases List.mem_cons.mp hc with h1 | h1
        · simp [h1]
        · exact List.mem_cons_of_mem _ (@ih p (by rw [hsp]; simp) h1)
      · exact List.mem_cons_of_mem _ (@ih part (by rw [hsp]; simp [h]) hc)

theorem goSplit_sep_free {sep : Char} {l : GoStr} (h : sep ∉ l) :
    goSplit sep l = [l] := by
  induction l with
  | nil => rfl
  | cons c cs ih =>
    have hc : c ≠ sep := fun hcc => h (by simp [hcc])
    rw [goSplit_cons_ne hc (ih (fun hm => h (by simp [hm])))]

theorem goSplit_append_sep {sep : Char} {p : GoStr} (rest : GoStr)
    (hp : sep ∉ p) :
    goSplit sep (p ++ sep :: rest) = p :: goSplit sep rest := by
  induction p with
  | nil => simpa using goSplit_cons_sep sep rest
  | cons c cs ih =>
    have hc : c ≠ sep := fun hcc => hp (by simp [hcc])
    rw [List.cons_append, goSplit_cons_ne hc (ih (fun hm => hp (by simp [hm])))]

theorem goSplit_eq_singleton {sep : Char} {l x : GoStr}
    (h : goSplit sep l = [x]) : x = l ∧ sep ∉ l := by
  induction l generalizing x with
  | nil =>
    simp [goSplit] at h
    simp [h]
  | cons c cs ih =>
    by_cases hc : c = sep
    · subst hc
      rw [goSplit_cons_sep] at h
      simp at h
      exact absurd h.2 (goSplit_ne_nil _ cs)
    · obtain ⟨p, ps, hsp⟩ := goSplit_exists_cons sep cs
      rw [goSplit_cons_ne hc hsp] at h
      injection h with h1 h2
      subst h2
      obtain ⟨hp, hno⟩ := ih hsp
      subst hp
      refine ⟨h1.symm, ?_⟩
      intro hm
      rcases List.mem_cons.mp hm with hm | hm
      · exact hc hm.symm
      · exact hno hm

theorem intercalate_single (sep x : GoStr) : sep.intercalate [x] = x := by
  simp [List.intercalate, List.intersperse]

theorem intercalate_cons_cons (sep a b : GoStr) (l : List GoStr) :
    sep.intercalate (a :: b :: l) = a ++ sep ++ sep.intercalate (b :: l) := by
  simp [List.intercalate, List.intersperse]

theorem mem_intercalate {s : Char} {parts : List GoStr} {c : Char}
    (h : c ∈ ([s] : GoStr).intercalate parts) :
    c = s ∨ ∃ part ∈ parts, c ∈ part := by
  induction parts with
  | nil => simp [List.intercalate] at h
  | cons q rest ih =>
    cases rest with
    | nil =>
      rw [intercalate_single] at h
      exact Or.inr ⟨q, by simp, h⟩
    | cons r rs =>
      rw [intercalate_cons_cons] at h
      simp only [List.append_assoc, List.mem_append] at h
      rcases h with h | h | h
      · exact Or.inr ⟨q, by simp, h⟩
      · simp at h
        exact Or.inl h
      · rcases ih h with h | ⟨part, hp, hc⟩
        · exact Or.inl h
        · exact Or.inr ⟨part, by simp [hp], hc⟩

theorem intercalate_append_last {s : Char} {parts : List GoStr} (q : GoStr)
    (h : parts ≠ []) :
    ([s] : GoStr).intercalate (parts ++ [q]) =
      ([s] : GoStr).intercalate parts ++ s :: q := by
  induction parts with
  | nil => exact absurd rfl h
  | cons a rest ih =>
    cases rest with
    | nil =>
      show ([s] : GoStr).intercalate [a, q] = _
      rw [intercalate_cons_cons, intercalate_single, intercalate_single]
      simp
    | cons b bs =>
      have ih2 := ih (by simp)
      simp only [List.cons_append] at ih2 ⊢
      rw [intercalate_cons_cons, ih2, intercalate_cons_cons]
      simp

theorem intercalate_cons_ne_nil {s : Char} {q : GoStr} (rest : List GoStr)
    (hq : q ≠ []) : ([s] : GoStr).intercalate (q :: rest) ≠ [] := by
  cases rest with
  | nil => rw [intercalate_single]; exact hq
  | cons r rs =>
    rw [intercalate_cons_cons]
    simp

theorem intercalate_head? {s : Char} {q : GoStr} (rest : List GoStr)
    (hq : q ≠ []) :
    (([s] : GoStr).intercalate (q :: rest)).head? = q.head? := by
  cases rest with
  | nil => rw [intercalate_single]
  | cons r rs =>
    rw [intercalate_cons_cons]
    cases q with
    | nil => exact absurd rfl hq
    | cons c cs => simp

theorem intercalate_getLast_ne {s : Char} :
    ∀ (parts : List GoStr), parts ≠ [] →
      (∀ part ∈ parts, part ≠ [] ∧ s ∉ part) →
      ∃ c, (([s] : GoStr).intercalate parts).getLast? = some c ∧ c ≠ s := by
  intro parts
  induction parts with
  | nil => intro h; exact absurd rfl h
  | cons q rest ih =>
    intro _ hall
    cases rest with
    | nil =>
      rw [intercalate_single]
      have hq := hall q (by simp)
      cases hg : q.getLast? with
      | none => exact absurd (List.getLast?_eq_none_iff.mp hg) hq.1
      | some c =>
        refine ⟨c, rfl, ?_⟩
        intro hcs
        subst hcs
        exact hq.2 (List.mem_of_mem_getLast? hg)
    | cons r rs =>
      obtain ⟨c, hc, hcs⟩ := ih (by simp)
        (fun part hp => hall part (by simp [hp]))
      rw [intercalate_cons_cons]
      refine ⟨c, ?_, hcs⟩
      rw [List.append_assoc, List.getLast?_append, List.getLast?_append, hc]
      rfl

/-! ## Helper lemmas: path cleaning -/

theorem cleanStep_no_dd {rooted : Bool} {acc : List GoStr} {c : GoStr}
    (h : c ≠ gs (r"..")) : cleanStep rooted acc c = acc ++ [c] := by
  unfold cleanStep
  rw [if_neg h]

theorem foldl_cleanStep_push {rooted : Bool} :
    ∀ {parts : List GoStr}, (∀ c ∈ parts, c ≠ gs (r"..")) →
      ∀ acc, parts.foldl (cleanStep rooted) acc = acc ++ parts := by
  intro parts
  induction parts with
  | nil => intro _ acc; simp
  | cons q rest ih =>
    intro h acc
    rw [List.foldl_cons, cleanStep_no_dd (h q (by simp)),
      ih (fun c hc => h c (by simp [hc]))]
    simp

theorem mem_foldl_cleanStep {rooted : Bool} :
    ∀ {parts : List GoStr} {acc : List GoStr} {x : GoStr},
      x ∈ parts.foldl (cleanStep rooted) acc → x ∈ acc ∨ x ∈ parts := by
  intro parts
  induction parts with
  | nil => intro acc x h; simp at h; exact Or.inl h
  | cons q rest ih =>
    intro acc x h
    rw [List.foldl_cons] at h
    rcases ih h with h1 | h1
    · have hsub : ∀ y ∈ cleanStep rooted acc q, y ∈ acc ∨ y = q := by
        intro y hy
        unfold cleanStep at hy
        by_cases hq : q = gs (r"..")
        · rw [if_pos hq] at hy
          by_cases hr : rooted
          · rw [if_pos hr] at hy
            exact Or.inl ((List.dropLast_sublist acc).subset hy)
          · rw [if_neg hr] at hy
            by_cases hnil : acc = []
            · rw [if_pos hnil] at hy
              rcases List.mem_append.mp hy with hy | hy
              · exact Or.inl hy
              · simp at hy; exact Or.inr hy
            · rw [if_neg hnil] at hy
              by_cases hl : acc.getLast? = some (gs (r".."))
              · rw [if_pos hl] at hy
                rcases List.mem_append.mp hy with hy | hy
                · exact Or.inl hy
                · simp at hy; exact Or.inr hy
              · rw [if_neg hl] at hy
                exact Or.inl ((List.dropLast_sublist acc).subset hy)
        · rw [if_neg hq] at hy
          rcases List.mem_append.mp hy with hy | hy
          · exact Or.inl hy
          · simp at hy; exact Or.inr hy
      rcases hsub x h1 with h2 | h2
      · exact Or.inl h2
      · exact Or.inr (by simp [h2])
    · exact Or.inr (by simp [h1])

theorem gs_slash : gs (r"/") = ['/'] := rfl

theorem gs_dot : gs (r".") = ['.'] := rfl

theorem goSplit_intercalate {parts : List GoStr} (hne : parts ≠ [])
    (h : ∀ q ∈ parts, ('/' : Char) ∉ q) :
    goSplit '/' ((gs (r"/")).intercalate parts) = parts := by
  rw [gs_slash]
  induction parts with
  | nil => exact absurd rfl hne
  | cons q rest ih =>
    cases rest with
    | nil =>
      rw [intercalate_single]
      exact goSplit_sep_free (h q (by simp))
    | cons r rs =>
      rw [intercalate_cons_cons, List.append_assoc, List.singleton_append,
        goSplit_append_sep _ (h q (by simp)),
        ih (by simp) (fun x hx => h x (by simp [hx]))]

theorem filter_decide_eq_self {parts : List GoStr}
    (h : ∀ q ∈ parts, q ≠ [] ∧ q ≠ gs (r".")) :
    parts.filter (fun c => c ≠ [] ∧ c ≠ gs (r".")) = parts := by
  rw [List.filter_eq_self]
  intro q hq
  simp only [decide_eq_true_eq]
  exact ⟨(h q hq).1, (h q hq).2⟩

theorem pathClean_unfold (p : GoStr) (hp : p ≠ []) :
    pathClean p =
      (if (p.head? = some '/' : Bool) then
         if ((goSplit '/' p).filter (fun c => c ≠ [] ∧ c ≠ gs (r"."))).foldl
             (cleanStep (p.head? = some '/')) [] = [] then gs (r"/")
         else '/' :: (gs (r"/")).intercalate
           (((goSplit '/' p).filter (fun c => c ≠ [] ∧ c ≠ gs (r"."))).foldl
             (cleanStep (p.head? = some '/')) [])
       else
         if ((goSplit '/' p).filter (fun c => c ≠ [] ∧ c ≠ gs (r"."))).foldl
             (cleanStep (p.head? = some '/')) [] = [] then gs (r".")
         else (gs (r"/")).intercalate
           (((goSplit '/' p).filter (fun c => c ≠ [] ∧ c ≠ gs (r"."))).foldl
             (cleanStep (p.head? = some '/')) [])) := by
  unfold pathClean
  rw [if_neg hp]

theorem pathClean_plain {parts : List GoStr} (hne : parts ≠ [])
    (hplain : ∀ q ∈ parts, q ≠ [] ∧ ('/' : Char) ∉ q ∧ q ≠ gs (r".") ∧
      q ≠ gs (r"..")) :
    pathClean ((gs (r"/")).intercalate parts) = (gs (r"/")).intercalate parts := by
  obtain ⟨q, rest, rfl⟩ : ∃ q rest, parts = q :: rest := by
    cases parts with
    | nil => exact absurd rfl hne
    | cons q rest => exact ⟨q, rest, rfl⟩
  have hq := hplain q (by simp)
  have hPne : (gs (r"/")).intercalate (q :: rest) ≠ [] := by
    rw [gs_slash]
    exact intercalate_cons_ne_nil rest hq.1
  have hPhead : ((gs (r"/")).intercalate (q :: rest)).head? ≠ some '/' := by
    rw [gs_slash, intercalate_head? rest hq.1]
    cases hqh : q.head? with
    | none => simp
    | some c =>
      have hc : c ∈ q := List.mem_of_mem_head? hqh
      intro hcon
      rw [Option.some.injEq] at hcon
      subst hcon
      exact hq.2.1 hc
  rw [pathClean_unfold _ hPne, decide_eq_false hPhead]
  rw [if_neg (by simp)]
  rw [goSplit_intercalate (by simp) (fun x hx => (hplain x hx).2.1),
    filter_decide_eq_self (fun x hx => ⟨(hplain x hx).1, (hplain x hx).2.2.1⟩),
    foldl_cleanStep_push (fun x hx => (hplain x hx).2.2.2) []]
  rw [List.nil_append, if_neg (by simp)]

theorem mem_filter_pred {p : GoStr} {q : GoStr}
    (hq : q ∈ (goSplit '/' p).filter (fun c => c ≠ [] ∧ c ≠ gs (r"."))) :
    q ≠ [] ∧ ('/' : Char) ∉ q ∧ q ∈ goSplit '/' p := by
  have h1 := List.mem_of_mem_filter hq
  have h2 := List.of_mem_filter hq
  simp only [decide_eq_true_eq] at h2
  exact ⟨h2.1, goSplit_no_sep '/' p q h1, h1⟩

theorem mem_pathClean {p : GoStr} {c : Char} (h : c ∈ pathClean p) :
    c ∈ p ∨ c = '/' ∨ c = '.' := by
  by_cases hp : p = []
  · subst hp
    simp [pathClean, gs_dot] at h
    simp [h]
  · rw [pathClean_unfold p hp] at h
    have hout : ∀ x ∈ ((goSplit '/' p).filter
        (fun c => c ≠ [] ∧ c ≠ gs (r"."))).foldl
        (cleanStep (p.head? = some '/')) [], ∀ d ∈ x, d ∈ p := by
      intro x hx d hd
      rcases mem_foldl_cleanStep hx with h1 | h1
      · simp at h1
      · exact mem_of_mem_goSplit (mem_filter_pred h1).2.2 hd
    by_cases hr : (p.head? = some '/' : Bool) = true
    · rw [if_pos hr] at h
      by_cases ho : ((goSplit '/' p).filter
          (fun c => c ≠ [] ∧ c ≠ gs (r"."))).foldl
          (cleanStep (p.head? = some '/')) [] = []
      · rw [if_pos ho] at h
        rw [gs_slash] at h
        simp at h
        simp [h]
      · rw [if_neg ho] at h
        rcases List.mem_cons.mp h with h1 | h1
        · simp [h1]
        · rw [gs_slash] at h1
          rcases mem_intercalate h1 with h2 | ⟨part, hp2, hc2⟩
          · simp [h2]
          · exact Or.inl (hout part hp2 c hc2)
    · rw [if_neg hr] at h
      by_cases ho : ((goSplit '/' p).filter
          (fun c => c ≠ [] ∧ c ≠ gs (r"."))).foldl
          (cleanStep (p.head? = some '/')) [] = []
      · rw [if_pos ho] at h
        rw [gs_dot] at h
        simp at h
        simp [h]
      · rw [if_neg ho] at h
        rw [gs_slash] at h
        rcases mem_intercalate h with h2 | ⟨part, hp2, hc2⟩
        · simp [h2]
        · exact Or.inl (hout part hp2 c hc2)

theorem pathClean_not_rooted {p : GoStr} (h : p.head? ≠ some '/') :
    pathClean p ≠ [] ∧ (pathClean p).head? ≠ some '/' ∧
      (pathClean p).getLast? ≠ some '/' := by
  by_cases hp : p = []
  · subst hp
    refine ⟨by simp [pathClean, gs_dot], by simp [pathClean, gs_dot],
      by simp [pathClean, gs_dot]⟩
  · rw [pathClean_unfold p hp, decide_eq_false h, if_neg (by simp)]
    set out := ((goSplit '/' p).filter
      (fun c => c ≠ [] ∧ c ≠ gs (r"."))).foldl (cleanStep false) []
    have hmem : ∀ x ∈ out, x ≠ [] ∧ ('/' : Char) ∉ x := by
      intro x hx
      rcases mem_foldl_cleanStep hx with h1 | h1
      · simp at h1
      · exact ⟨(mem_filter_pred h1).1, (mem_filter_pred h1).2.1⟩
    by_cases ho : out = []
    · rw [if_pos ho]
      refine ⟨by simp [gs_dot], by simp [gs_dot], by simp [gs_dot]⟩
    · rw [if_neg ho]
      obtain ⟨o, os, hoo⟩ : ∃ o os, out = o :: os := by
        cases hc : out with
        | nil => exact absurd hc ho
        | cons o os => exact ⟨o, os, rfl⟩
      rw [hoo, gs_slash]
      have hone : o ≠ [] := (hmem o (by rw [hoo]; simp)).1
      refine ⟨intercalate_cons_ne_nil os hone, ?_, ?_⟩
      · rw [intercalate_head? os hone]
        cases hoh : o.head? with
        | none => simp
        | some d =>
          have hd : d ∈ o := List.mem_of_mem_head? hoh
          intro hcon
          rw [Option.some.injEq] at hcon
          subst hcon
          exact (hmem o (by rw [hoo]; simp)).2 hd
      · obtain ⟨d, hd, hdne⟩ := intercalate_getLast_ne (o :: os) (by simp)
          (fun part hpp => hmem part (by rw [hoo]; exact hpp))
        rw [hd]
        intro hcon
        rw [Option.some.injEq] at hcon
        exact hdne hcon

/-! ## Helper lemmas: goBase and goJoin -/

theorem takeWhile_all {p : Char → Bool} {l : GoStr} (h : ∀ c ∈ l, p c = true) :
    l.takeWhile p = l := by
  induction l with
  | nil => rfl
  | cons c cs ih =>
    rw [List.takeWhile_cons, if_pos (h c (by simp)),
      ih (fun d hd => h d (by simp [hd]))]

theorem takeWhile_append_stop {p : Char → Bool} {xs : GoStr} (y : Char)
    (ys : GoStr) (hxs : ∀ c ∈ xs, p c = true) (hy : p y = false) :
    (xs ++ y :: ys).takeWhile p = xs := by
  induction xs with
  | nil => simp [List.takeWhile_cons, hy]
  | cons c cs ih =>
    rw [List.cons_append, List.takeWhile_cons, if_pos (hxs c (by simp)),
      ih (fun d hd => hxs d (by simp [hd]))]

theorem goBase_append_slash {f : GoStr} (hne : f ≠ []) :
    goBase (f ++ ['/']) = goBase f := by
  unfold goBase
  rw [if_neg (by simp), if_neg hne]
  have h1 : (f ++ ['/']).reverse.dropWhile (fun c => c = '/') =
      f.reverse.dropWhile (fun c => c = '/') := by
    rw [List.reverse_append]
    show List.dropWhile _ ('/' :: f.reverse) = _
    rw [List.dropWhile_cons, if_pos (by simp)]
  rw [h1]

theorem goBase_no_slash {u : GoStr} (hne : u ≠ []) (hu : ('/' : Char) ∉ u) :
    goBase u = u := by
  have hlast : u.reverse.dropWhile (fun c => c = '/') = u.reverse := by
    cases hr : u.reverse with
    | nil => rfl
    | cons d ds =>
      rw [List.dropWhile_cons, if_neg ?_]
      have hd : d ∈ u := by
        rw [← List.mem_reverse, hr]
        simp
      simp only [decide_eq_true_eq]
      intro hcon
      subst hcon
      exact hu hd
  have htake : u.reverse.takeWhile (fun c => c ≠ '/') = u.reverse := by
    apply takeWhile_all
    intro c hc
    rw [List.mem_reverse] at hc
    simp only [decide_eq_true_eq]
    intro hcon
    subst hcon
    exact hu hc
  unfold goBase
  rw [if_neg hne, hlast, htake, List.reverse_reverse, if_neg hne]

theorem goBase_plain {u : GoStr} (pre : GoStr) (hne : u ≠ [])
    (hu : ('/' : Char) ∉ u) : goBase (pre ++ '/' :: u) = u := by
  have hrev : (pre ++ '/' :: u).reverse = u.reverse ++ '/' :: pre.reverse := by
    rw [List.reverse_append, List.reverse_cons, List.append_assoc]
    simp
  have hup : ∀ c ∈ u.reverse, (decide (c ≠ '/')) = true := by
    intro c hc
    rw [List.mem_reverse] at hc
    simp only [decide_eq_true_eq]
    intro hcon
    subst hcon
    exact hu hc
  have hdrop : (u.reverse ++ '/' :: pre.reverse).dropWhile (fun c => c = '/') =
      u.reverse ++ '/' :: pre.reverse := by
    cases hr : u.reverse with
    | nil =>
      exact absurd (by rw [← List.reverse_reverse u, hr]; rfl) hne
    | cons d ds =>
      rw [List.cons_append, List.dropWhile_cons, if_neg ?_]
      have hd : (decide (d ≠ '/')) = true := hup d (by rw [hr]; simp)
      simp only [decide_eq_true_eq] at hd ⊢
      exact fun hcon => hd hcon
  have htake : (u.reverse ++ '/' :: pre.reverse).takeWhile (fun c => c ≠ '/') =
      u.reverse :=
    takeWhile_append_stop '/' pre.reverse hup (by simp)
  unfold goBase
  rw [if_neg (by simp), hrev, hdrop, htake, List.reverse_reverse,
    if_neg hne]

theorem goJoin_cons_ne {q : GoStr} (rest : List GoStr) (hq : q ≠ []) :
    goJoin (q :: rest) = pathClean ((gs (r"/")).intercalate (q :: rest)) := by
  unfold goJoin
  rw [List.dropWhile_cons, if_neg (by simp [hq])]

theorem mem_goJoin {elems : List GoStr} {c : Char} (h : c ∈ goJoin elems) :
    (∃ q ∈ elems, c ∈ q) ∨ c = '/' ∨ c = '.' := by
  unfold goJoin at h
  cases hd : elems.dropWhile (fun e => e = []) with
  | nil => rw [hd] at h; simp at h
  | cons q rest =>
    rw [hd] at h
    rcases mem_pathClean h with h1 | h1
    · rcases mem_intercalate (by rw [← gs_slash]; exact h1) with h2 | ⟨part, hp2, hc2⟩
      · exact Or.inr (Or.inl h2)
      · refine Or.inl ⟨part, ?_, hc2⟩
        have : part ∈ elems.dropWhile (fun e => e = []) := by rw [hd]; exact hp2
        exact ((List.dropWhile_suffix _).subset) this
    · exact Or.inr h1

/-! ## Characterization of `SanString` -/

theorem SanString_ok {x y : GoStr} (h : SanString x = .ok y) :
    y = collapseRuns reSpace ' '
      (trimSpace ((x.filter (fun c => !goIsControl c)).map
        (fun c => if unsafeChar c then ' ' else c))) ∧ y ≠ [] := by
  unfold SanString at h
  simp only [] at h
  split at h
  · exact absurd h (by simp)
  · next hcol =>
    injection h with h1
    exact ⟨h1.symm, h1 ▸ hcol⟩

theorem SanString_chars {x y : GoStr} (h : SanString x = .ok y) :
    ∀ c ∈ y, goIsControl c = false ∧ unsafeChar c = false := by
  obtain ⟨hy, -⟩ := SanString_ok h
  intro c hc
  rw [hy] at hc
  rcases mem_collapseAux hc with hrep | ⟨hmem, -⟩
  · subst hrep; constructor <;> decide
  · have hz := mem_of_mem_goTrim hmem
    rw [List.mem_map] at hz
    obtain ⟨a, ha, hac⟩ := hz
    by_cases hu : unsafeChar a
    · rw [if_pos hu] at hac
      subst hac; constructor <;> decide
    · rw [if_neg hu] at hac
      subst hac
      have hctl := List.of_mem_filter ha
      simp only [Bool.not_eq_true'] at hctl
      exact ⟨hctl, by simpa using hu⟩

theorem SanString_idem {x y : GoStr} (h : SanString x = .ok y) :
    SanString y = .ok y := by
  obtain ⟨hy, hne⟩ := SanString_ok h
  have hchars := SanString_chars h
  have hfilter : y.filter (fun c => !goIsControl c) = y := by
    rw [List.filter_eq_self]
    intro a ha
    simp [(hchars a ha).1]
  have hmap : y.map (fun c => if unsafeChar c then ' ' else c) = y :=
    map_id_of (fun c hc => by rw [if_neg (by simp [(hchars c hc).2])])
  have hhead : ∀ c, y.head? = some c → goIsSpace c = false := by
    intro c hc
    rw [hy] at hc
    cases ht : trimSpace ((x.filter (fun c => !goIsControl c)).map
        (fun c => if unsafeChar c then ' ' else c)) with
    | nil => rw [ht] at hc; simp [collapseRuns, collapseAux] at hc
    | cons d ds =>
      have hd : goIsSpace d = false := by
        apply goTrim_head? (p := goIsSpace)
          (l := (x.filter (fun c => !goIsControl c)).map
            (fun c => if unsafeChar c then ' ' else c))
        show (trimSpace _).head? = _
        rw [ht]
        rfl
      have hdre : reSpace d = false := by
        cases hre : reSpace d
        · rfl
        · rw [reSpace_isSpace hre] at hd; cases hd
      rw [ht, collapseRuns_cons_neg hdre] at hc
      simp at hc
      subst hc
      exact hd
  have hlast : ∀ c, y.getLast? = some c → goIsSpace c = false := by
    intro c hc
    rw [hy] at hc
    cases ht : (trimSpace ((x.filter (fun c => !goIsControl c)).map
        (fun c => if unsafeChar c then ' ' else c))).getLast? with
    | none =>
      have hnil := List.getLast?_eq_none_iff.mp ht
      rw [hnil] at hc
      simp [collapseRuns, collapseAux] at hc
    | some a =>
      have ha : goIsSpace a = false := goTrim_getLast? ht
      have hare : reSpace a = false := by
        cases hre : reSpace a
        · rfl
        · rw [reSpace_isSpace hre] at ha; cases ha
      rw [collapseRuns_getLast? _ _ le_rfl ht hare] at hc
      rw [Option.some.injEq] at hc
      subst hc
      exact ha
  have htrim : trimSpace y = y := goTrim_eq_self hhead hlast
  have hcol : collapseRuns reSpace ' ' y = y := by
    rw [hy]
    exact collapseRuns_idem (by decide) _ _ le_rfl
  unfold SanString
  simp only []
  rw [hfilter, hmap, htrim, hcol, if_neg hne]

/-! ## Characterization of `Hostname` and `Extension` -/

theorem Hostname_eq_of_sanOk {x res : GoStr} (hs : SanString x = .ok res) :
    Hostname x =
      if hostRegexMatch res then .ok res else .error .invalidHostname := by
  unfold Hostname
  rw [hs]

theorem Hostname_eq_of_sanErr {x : GoStr} {e : Err}
    (hs : SanString x = .error e) : Hostname x = .error e := by
  unfold Hostname
  rw [hs]

theorem Hostname_ok {x y : GoStr} (h : Hostname x = .ok y) :
    SanString x = .ok y ∧ hostRegexMatch y = true := by
  cases hs : SanString x with
  | error e =>
    rw [Hostname_eq_of_sanErr hs] at h
    simp at h
  | ok res =>
    rw [Hostname_eq_of_sanOk hs] at h
    split at h
    · next hm =>
      injection h with h1
      subst h1
      exact ⟨rfl, hm⟩
    · exact absurd h (by simp)

theorem Hostname_idem {x y : GoStr} (h : Hostname x = .ok y) :
    Hostname y = .ok y := by
  obtain ⟨hs, hm⟩ := Hostname_ok h
  rw [Hostname_eq_of_sanOk (SanString_idem hs), if_pos hm]

theorem getLastD_mem {l : List GoStr} (hne : l ≠ []) : l.getLastD [] ∈ l := by
  rw [List.getLastD_eq_getLast?]
  cases hg : l.getLast? with
  | none => exact absurd (List.getLast?_eq_none_iff.mp hg) hne
  | some q => exact List.mem_of_mem_getLast? hg

theorem Extension_ok_shape {x y : GoStr} (h : Extension x = .ok y) :
    ∃ r, y = '.' :: r ∧ r ≠ [] ∧ ('.' : Char) ∉ r ∧
      ∀ c ∈ r, extKeep c = true ∧ goToLower c = c := by
  unfold Extension at h
  simp only [] at h
  set e2 := ((trimSpace x).map goToLower).filter extKeep with he2
  have me2 : ∀ c ∈ e2, extKeep c = true ∧ goToLower c = c := by
    intro c hc
    refine ⟨List.of_mem_filter hc, ?_⟩
    have hm := List.mem_of_mem_filter hc
    rw [List.mem_map] at hm
    obtain ⟨a, -, hac⟩ := hm
    rw [← hac]
    exact goToLower_idem a
  obtain ⟨r2, hr2, hr2sub⟩ : ∃ r2,
      (if (gs (r".")).isPrefixOf e2 then e2 else '.' :: e2) = '.' :: r2 ∧
        ∀ c ∈ r2, c ∈ e2 := by
    by_cases hp : (gs (r".")).isPrefixOf e2
    · rw [if_pos hp]
      obtain ⟨t, ht⟩ := List.isPrefixOf_iff_prefix.mp hp
      refine ⟨t, by rw [← ht]; rfl, ?_⟩
      intro c hc
      rw [← ht]
      simp [hc]
    · rw [if_neg hp]
      exact ⟨e2, rfl, fun c hc => hc⟩
  rw [hr2, goSplit_cons_sep] at h
  by_cases hlen : ([] :: goSplit '.' r2).length > 2
  · rw [if_pos hlen, List.getLastD_cons] at h
    split at h
    · exact absurd h (by simp)
    · next hguard =>
      injection h with h1
      rw [not_or] at hguard
      obtain ⟨hg1, -⟩ := hguard
      have hqne : goSplit '.' r2 ≠ [] := goSplit_ne_nil '.' r2
      have hqmem : (goSplit '.' r2).getLastD [] ∈ goSplit '.' r2 :=
        getLastD_mem hqne
      refine ⟨(goSplit '.' r2).getLastD [], h1.symm, ?_, ?_, ?_⟩
      · intro hcon
        rw [hcon, gs_dot] at hg1
        exact hg1 rfl
      · exact goSplit_no_sep '.' r2 _ hqmem
      · intro c hc
        exact me2 c (hr2sub c (mem_of_mem_goSplit hqmem hc))
  · rw [if_neg hlen] at h
    split at h
    · exact absurd h (by simp)
    · next hguard =>
      injection h with h1
      rw [not_or] at hguard
      obtain ⟨hg1, -⟩ := hguard
      have hlen2 : (goSplit '.' r2).length = 1 := by
        have h3 := goSplit_ne_nil '.' r2
        have h4 : (goSplit '.' r2).length ≠ 0 := by simpa using h3
        simp at hlen
        omega
      obtain ⟨q, hq⟩ : ∃ q, goSplit '.' r2 = [q] := by
        cases hc : goSplit '.' r2 with
        | nil => exact absurd hc (goSplit_ne_nil '.' r2)
        | cons a rest =>
          rw [hc] at hlen2
          simp at hlen2
          subst hlen2
          exact ⟨a, rfl⟩
      obtain ⟨hqr, hno⟩ := goSplit_eq_singleton hq
      subst hqr
      refine ⟨q, h1.symm, ?_, hno, fun c hc => me2 c (hr2sub c hc)⟩
      intro hcon
      subst hcon
      rw [gs_dot] at hg1
      exact hg1 rfl

theorem Extension_idem {x y : GoStr} (h : Extension x = .ok y) :
    Extension y = .ok y := by
  obtain ⟨r, hy, hrne, hrno, hrchars⟩ := Extension_ok_shape h
  subst hy
  have hychars : ∀ c ∈ ('.' :: r), extKeep c = true ∧ goToLower c = c := by
    intro c hc
    rcases List.mem_cons.mp hc with h1 | h1
    · subst h1
      exact ⟨by decide, by decide⟩
    · exact hrchars c h1
  have htrim : trimSpace ('.' :: r) = '.' :: r := by
    apply goTrim_eq_self_of_none
    intro c hc
    exact (extKeep_facts (hychars c hc).1).2
  have hmap : ('.' :: r).map goToLower = '.' :: r :=
    map_id_of (fun c hc => (hychars c hc).2)
  have hfil : ('.' :: r).filter extKeep = '.' :: r :=
    List.filter_eq_self.mpr (fun c hc => (hychars c hc).1)
  have hpre : (gs (r".")).isPrefixOf ('.' :: r) = true := by
    rw [gs_dot, List.isPrefixOf_iff_prefix]
    exact ⟨r, rfl⟩
  unfold Extension
  simp only []
  rw [htrim, hmap, hfil, if_pos hpre, goSplit_cons_sep, goSplit_sep_free hrno]
  have hlen : ¬(([] :: [r] : List GoStr).length > 2) := by simp
  rw [if_neg hlen]
  have hguard : ¬('.' :: r = gs (r".") ∨ '.' :: r = ([] : GoStr)) := by
    rw [gs_dot]
    simp [hrne]
  rw [if_neg hguard]

/-! ## Characterization of `Url` -/

theorem Url_ok {x y : GoStr} {rp : Bool} (h : Url x rp = .ok y) :
    y = trimSpace (x.filter (fun c => !goIsControl c)) ∧ y ≠ [] ∧
      urlRegexMatch y = true ∧
      (rp && !((gs (r"http://")).isPrefixOf (y.map goToLower) ||
        (gs (r"https://")).isPrefixOf (y.map goToLower))) = false := by
  unfold Url at h
  simp only [] at h
  split at h
  · exact absurd h (by simp)
  · next hne =>
    split at h
    · exact absurd h (by simp)
    · next hm =>
      split at h
      · exact absurd h (by simp)
      · next hp =>
        injection h with h1
        subst h1
        refine ⟨rfl, hne, ?_, ?_⟩
        · simp only [Bool.not_eq_true', Bool.not_eq_false] at hm
          exact hm
        · simpa using hp

theorem Url_idem {x y : GoStr} {rp : Bool} (h : Url x rp = .ok y) :
    Url y rp = .ok y := by
  obtain ⟨hy, hne, hm, hp⟩ := Url_ok h
  have hfil : y.filter (fun c => !goIsControl c) = y := by
    rw [List.filter_eq_self]
    intro a ha
    rw [hy] at ha
    have h3 := List.of_mem_filter (mem_of_mem_goTrim ha)
    simpa using h3
  have hh : ∀ c, y.head? = some c → goIsSpace c = false := by
    intro c hc
    rw [hy] at hc
    exact goTrim_head? hc
  have hl : ∀ c, y.getLast? = some c → goIsSpace c = false := by
    intro c hc
    rw [hy] at hc
    exact goTrim_getLast? hc
  have htrim : trimSpace y = y := goTrim_eq_self hh hl
  unfold Url
  simp only []
  rw [hfil, htrim, if_neg hne, if_neg (by simp [hm]), if_neg (by rw [hp]; simp)]

/-! ## Characterization of `FileName` and `DirName` -/

theorem base_pipeline_chars {b : GoStr} {c : Char}
    (h : c ∈ trimChar ['_'] (collapseRuns (fun c => c = '_') '_'
      ((b.filter fnameKeep).filter (fun c => !ctlByte c)))) :
    fnameKeep c = true := by
  have h1 := mem_of_mem_goTrim h
  rcases mem_collapseAux h1 with h2 | ⟨h2, -⟩
  · subst h2; decide
  · exact List.of_mem_filter (List.mem_of_mem_filter h2)

theorem sExt_chars {ext sExt : GoStr}
    (h : (if ext ≠ [] then Extension ext else .ok []) = .ok sExt) :
    ∀ c ∈ sExt, extKeep c = true := by
  split at h
  · obtain ⟨r, hy, -, -, hchars⟩ := Extension_ok_shape h
    subst hy
    intro c hc
    rcases List.mem_cons.mp hc with h1 | h1
    · subst h1; decide
    · exact (hchars c h1).1
  · injection h with h1
    subst h1
    intro c hc
    simp at hc

set_option maxHeartbeats 2000000 in
theorem FileName_ok_facts {x y : GoStr} (h : FileName x = .ok y) :
    y ≠ [] ∧ y.length ≤ 255 ∧
      ∀ c ∈ y, fnameKeep c = true ∨ extKeep c = true := by
  unfold FileName at h
  simp only [] at h
  split at h
  · exact absurd h (by simp)
  split at h
  · exact absurd h (by simp)
  split at h
  · exact absurd h (by simp)
  split at h
  · exact absurd h (by simp)
  split at h
  · exact absurd h (by simp)
  next sExt hsext =>
  have hext : ∀ c ∈ sExt, extKeep c = true := sExt_chars hsext
  set base2 := trimChar ['_'] (collapseRuns (fun c => c = '_') '_'
    (((trimSpace (goTrimSuffix x (goExt x))).filter fnameKeep).filter
      (fun c => !ctlByte c))) with hbase2
  have hchars2 : ∀ c ∈ base2 ++ sExt, fnameKeep c = true ∨ extKeep c = true := by
    intro c hc
    rcases List.mem_append.mp hc with h1 | h1
    · exact Or.inl (base_pipeline_chars h1)
    · exact Or.inr (hext c h1)
  split at h
  · exact absurd h (by simp)
  next result hslice =>
  split at h
  · exact absurd h (by simp)
  next hguard =>
  injection h with h1
  subst h1
  rw [not_or] at hguard
  obtain ⟨hg1, -⟩ := hguard
  by_cases hlen : (base2 ++ sExt).length > 255
  · rw [if_pos hlen] at hslice
    unfold goSlice at hslice
    split at hslice
    · next hk =>
      simp only [Except.map] at hslice
      injection hslice with h2
      subst h2
      obtain ⟨hk0, hkle⟩ := hk
      have hsle : sExt.length ≤ 255 := by omega
      have htn : ((255 : Int) - sExt.length).toNat = 255 - sExt.length := by
        omega
      have hmle : 255 - sExt.length ≤ (base2 ++ sExt).length := by omega
      refine ⟨hg1, ?_, ?_⟩
      · rw [List.length_append, List.length_take, htn, min_eq_left hmle]
        omega
      · intro c hc
        rcases List.mem_append.mp hc with h2 | h2
        · exact hchars2 c (List.take_subset _ _ h2)
        · exact hchars2 c (by simp [h2])
    · simp [Except.map] at hslice
  · rw [if_neg hlen] at hslice
    injection hslice with h2
    subst h2
    exact ⟨hg1, by omega, hchars2⟩

theorem DirName_ok_facts {x y : GoStr} (h : DirName x = .ok y) :
    y ≠ [] ∧ y.length ≤ 255 ∧ ∀ c ∈ y, fnameKeep c = true := by
  unfold DirName at h
  simp only [] at h
  split at h
  · exact absurd h (by simp)
  split at h <;>
    (split at h
     · exact absurd h (by simp)
     next hne =>
     injection h with h1
     subst h1
     split
     · next hlen =>
       refine ⟨?_, ?_, ?_⟩
       · simp only [Ne, List.take_eq_nil_iff, not_or]
         exact ⟨by omega, hne⟩
       · rw [List.length_take]
         omega
       · intro c hc
         exact base_pipeline_chars (List.take_subset _ _ hc)
     · next hlen =>
       refine ⟨hne, by omega, ?_⟩
       intro c hc
       exact base_pipeline_chars hc)

/-! ## Characterization of `SanPath` -/

theorem getLast?_cons_ne {a : Char} {l : GoStr} (h : l ≠ []) :
    (a :: l).getLast? = l.getLast? := by
  cases hg : l.getLast? with
  | none => exact absurd (List.getLast?_eq_none_iff.mp hg) h
  | some b => rw [List.getLast?_cons, hg]; rfl

theorem pathClean_ne_nil (p : GoStr) : pathClean p ≠ [] := by
  by_cases hp : p = []
  · subst hp; simp [pathClean, gs_dot]
  · rw [pathClean_unfold p hp]
    by_cases hr : (p.head? = some '/' : Bool) = true
    · rw [if_pos hr]
      split
      · simp [gs_slash]
      · simp
    · rw [if_neg hr]
      split
      · simp [gs_dot]
      · next ho =>
        obtain ⟨o, os, hoo⟩ : ∃ o os,
            ((goSplit '/' p).filter (fun c => c ≠ [] ∧ c ≠ gs (r"."))).foldl
              (cleanStep (p.head? = some '/')) [] = o :: os := by
          cases hc : ((goSplit '/' p).filter
              (fun c => c ≠ [] ∧ c ≠ gs (r"."))).foldl
              (cleanStep (p.head? = some '/')) [] with
          | nil => exact absurd hc ho
          | cons o os => exact ⟨o, os, rfl⟩
        rw [hoo, gs_slash]
        apply intercalate_cons_ne_nil
        have hmem : o ∈ ((goSplit '/' p).filter
            (fun c => c ≠ [] ∧ c ≠ gs (r"."))).foldl
            (cleanStep (p.head? = some '/')) [] := by
          rw [hoo]; simp
        rcases mem_foldl_cleanStep hmem with h1 | h1
        · simp at h1
        · exact (mem_filter_pred h1).1

theorem goJoin_eq {elems : List GoStr} {q : GoStr} {rest : List GoStr}
    (h : elems.dropWhile (fun e => e = []) = q :: rest) :
    goJoin elems = pathClean ((gs (r"/")).intercalate (q :: rest)) := by
  unfold goJoin
  rw [h]

theorem goJoin_eq_nil {elems : List GoStr}
    (h : elems.dropWhile (fun e => e = []) = []) : goJoin elems = [] := by
  unfold goJoin
  rw [h]

theorem keptComps_facts {comps : List GoStr} {q : GoStr}
    (hq : q ∈ keptComps comps) :
    q ≠ [] ∧ ('/' : Char) ∉ q ∧ ∀ c ∈ q, goIsControl c = false := by
  unfold keptComps at hq
  rw [List.mem_filterMap] at hq
  obtain ⟨ic, -, hic⟩ := hq
  by_cases h1 : ic.2 = []
  · rw [if_pos h1] at hic; simp at hic
  · rw [if_neg h1] at hic
    by_cases h2 : ic.2 = gs (r".") ∨ ic.2 = gs (r"..")
    · rw [if_pos h2] at hic
      injection hic with h3
      subst h3
      rcases h2 with h2 | h2 <;> rw [h2] <;>
        exact ⟨by decide, by decide, by decide⟩
    · rw [if_neg h2] at hic
      by_cases h3 : ic.1 = comps.length - 1 ∧ HasFileExtension ic.2
      · rw [if_pos h3] at hic
        cases hf : FileName ic.2 with
        | error e => rw [hf] at hic; simp [Except.toOption] at hic
        | ok v =>
          rw [hf] at hic
          simp only [Except.toOption] at hic
          injection hic with h4
          subst h4
          obtain ⟨hne, -, hchars⟩ := FileName_ok_facts hf
          refine ⟨hne, ?_, ?_⟩
          · intro hmem
            rcases hchars '/' hmem with hk | hk
            · exact absurd hk (by decide)
            · exact absurd hk (by decide)
          · intro c hc
            rcases hchars c hc with hk | hk
            · exact (fnameKeep_facts hk).1
            · exact (extKeep_facts hk).1
      · rw [if_neg h3] at hic
        cases hf : DirName ic.2 with
        | error e => rw [hf] at hic; simp [Except.toOption] at hic
        | ok v =>
          rw [hf] at hic
          simp only [Except.toOption] at hic
          injection hic with h4
          subst h4
          obtain ⟨hne, -, hchars⟩ := DirName_ok_facts hf
          refine ⟨hne, ?_, ?_⟩
          · intro hmem
            exact absurd (hchars '/' hmem) (by decide)
          · intro c hc
            exact (fnameKeep_facts (hchars c hc)).1

set_option maxHeartbeats 4000000 in
theorem SanPath_ok_facts {p : GoStr} {nav : Bool} {y : GoStr}
    (h : SanPath p nav = .ok y) :
    ∃ f : GoStr,
      y = (if !HasFileExtension (goBase f) then f ++ ['/'] else f) ∧
      f ≠ [] ∧ f.getLast? ≠ some '/' ∧ f.length ≤ 4096 ∧
      ∀ c ∈ f, goIsControl c = false := by
  have tailstep : ∀ f : GoStr,
      (if f.length > 4096 then (.error .pathTooLong : Except Err GoStr) else
        .ok (if !HasFileExtension (goBase f) then f ++ ['/'] else f)) = .ok y →
      f ≠ [] → f.getLast? ≠ some '/' → (∀ c ∈ f, goIsControl c = false) →
      ∃ f : GoStr,
        y = (if !HasFileExtension (goBase f) then f ++ ['/'] else f) ∧
        f ≠ [] ∧ f.getLast? ≠ some '/' ∧ f.length ≤ 4096 ∧
        ∀ c ∈ f, goIsControl c = false := by
    intro f hf hne hlast hchars
    split at hf
    · exact absurd hf (by simp)
    · next hlen =>
      injection hf with h1
      exact ⟨f, h1.symm, hne, hlast, by omega, hchars⟩
  have ext1 : ∀ (a : Char) (f : GoStr), goIsControl a = false → f ≠ [] →
      f.getLast? ≠ some '/' → (∀ c ∈ f, goIsControl c = false) →
      ((a :: f) ≠ [] ∧ (a :: f).getLast? ≠ some '/' ∧
        ∀ c ∈ a :: f, goIsControl c = false) := by
    intro a f ha hne hlast hchars
    refine ⟨by simp, ?_, ?_⟩
    · rw [getLast?_cons_ne hne]
      exact hlast
    · intro c hc
      rcases List.mem_cons.mp hc with hx | hx
      · subst hx; exact ha
      · exact hchars c hx
  unfold SanPath at h
  simp only [] at h
  by_cases h1 : trimSpace p = []
  · rw [if_pos h1] at h
    exact absurd h (by simp)
  rw [if_neg h1] at h
  by_cases hpan : compPanic (goSplit '/' (trimSpace p)) = true
  · rw [if_pos hpan] at h
    exact absurd h (by simp)
  rw [if_neg hpan] at h
  by_cases hc1 : pathClean (goJoin (keptComps (goSplit '/' (trimSpace p)))) =
      gs (r".")
  · rw [if_pos hc1] at h
    by_cases hAbs : (gs (r"/")).isPrefixOf (trimSpace p) = true
    · rw [if_pos hAbs] at h
      rw [if_pos (Or.inr (Or.inr (by rfl)))] at h
      exact absurd h (by simp)
    · rw [if_neg hAbs] at h
      rw [if_pos (Or.inl rfl)] at h
      exact absurd h (by simp)
  · rw [if_neg hc1] at h
    have hrel1 : pathClean (goJoin (keptComps (goSplit '/' (trimSpace p)))) ≠ [] ∧
        (pathClean (goJoin (keptComps (goSplit '/' (trimSpace p))))).head? ≠
          some '/' ∧
        (pathClean (goJoin (keptComps (goSplit '/' (trimSpace p))))).getLast? ≠
          some '/' := by
      cases hdw : (keptComps (goSplit '/' (trimSpace p))).dropWhile
          (fun e => e = []) with
      | nil =>
        exfalso
        apply hc1
        rw [goJoin_eq_nil hdw]
        simp [pathClean]
      | cons q rest =>
        have hq : q ∈ keptComps (goSplit '/' (trimSpace p)) := by
          have : q ∈ q :: rest := by simp
          rw [← hdw] at this
          exact (List.dropWhile_suffix _).subset this
        obtain ⟨hqne, hqs, -⟩ := keptComps_facts hq
        have hInthead : ((gs (r"/")).intercalate (q :: rest)).head? ≠ some '/' := by
          rw [gs_slash, intercalate_head? rest hqne]
          cases hqh : q.head? with
          | none => simp
          | some c =>
            intro hcon
            rw [Option.some.injEq] at hcon
            subst hcon
            exact hqs (List.mem_of_mem_head? hqh)
        have hj := pathClean_not_rooted hInthead
        rw [goJoin_eq hdw]
        exact pathClean_not_rooted hj.2.1
    have hrel1chars : ∀ c ∈
        pathClean (goJoin (keptComps (goSplit '/' (trimSpace p)))),
        goIsControl c = false := by
      intro c hc
      rcases mem_pathClean hc with h2 | h2 | h2
      · rcases mem_goJoin h2 with ⟨q, hq, hcq⟩ | h3 | h3
        · exact (keptComps_facts hq).2.2 c hcq
        · subst h3; decide
        · subst h3; decide
      · subst h2; decide
      · subst h2; decide
    obtain ⟨hr1ne, hr1head, hr1last⟩ := hrel1
    by_cases hAbs : (gs (r"/")).isPrefixOf (trimSpace p) = true
    · rw [if_pos hAbs] at h
      rw [if_neg ?hguard] at h
      case hguard =>
        rw [not_or, not_or]
        refine ⟨by simp, ?_, ?_⟩
        · rw [gs_dot]
          intro hcon
          injection hcon with hx hy
          exact absurd hx (by decide)
        · rw [gs_slash]
          intro hcon
          injection hcon with hx hy
          exact hr1ne hy
      have hf0 : ('/' :: pathClean (goJoin (keptComps
            (goSplit '/' (trimSpace p))))) ≠ [] ∧
          ('/' :: pathClean (goJoin (keptComps
            (goSplit '/' (trimSpace p))))).getLast? ≠ some '/' ∧
          ∀ c ∈ ('/' :: pathClean (goJoin (keptComps
            (goSplit '/' (trimSpace p))))), goIsControl c = false :=
        ext1 '/' _ (by decide) hr1ne hr1last hrel1chars
      obtain ⟨hf0ne, hf0last, hf0chars⟩ := hf0
      split at h
      · split at h
        · next hcond =>
          obtain ⟨he1, he2, he3⟩ := ext1 '/' _ (by decide) hf0ne hf0last hf0chars
          obtain ⟨hd1, hd2, hd3⟩ := ext1 '.' _ (by decide) he1 he2 he3
          exact tailstep _ h hd1 hd2 hd3
        · split at h
          · next hcond =>
            obtain ⟨he1, he2, he3⟩ := ext1 '/' _ (by decide) hf0ne hf0last hf0chars
            obtain ⟨hd1, hd2, hd3⟩ := ext1 '.' _ (by decide) he1 he2 he3
            obtain ⟨hd4, hd5, hd6⟩ := ext1 '.' _ (by decide) hd1 hd2 hd3
            exact tailstep _ h hd4 hd5 hd6
          · exact tailstep _ h hf0ne hf0last hf0chars
      · exact tailstep _ h hf0ne hf0last hf0chars
    · rw [if_neg hAbs] at h
      rw [if_neg ?hguard2] at h
      case hguard2 =>
        rw [not_or, not_or]
        refine ⟨hr1ne, hc1, ?_⟩
        intro hcon
        apply hr1head
        rw [hcon, gs_slash]
        rfl
      split at h
      · split at h
        · next hcond =>
          obtain ⟨he1, he2, he3⟩ :=
            ext1 '/' _ (by decide) hr1ne hr1last hrel1chars
          obtain ⟨hd1, hd2, hd3⟩ := ext1 '.' _ (by decide) he1 he2 he3
          exact tailstep _ h hd1 hd2 hd3
        · split at h
          · next hcond =>
            obtain ⟨he1, he2, he3⟩ :=
              ext1 '/' _ (by decide) hr1ne hr1last hrel1chars
            obtain ⟨hd1, hd2, hd3⟩ := ext1 '.' _ (by decide) he1 he2 he3
            obtain ⟨hd4, hd5, hd6⟩ := ext1 '.' _ (by decide) hd1 hd2 hd3
            exact tailstep _ h hd4 hd5 hd6
          · exact tailstep _ h hr1ne hr1last hrel1chars
      · exact tailstep _ h hr1ne hr1last hrel1chars

theorem SanPath_eq (p : GoStr) (nav : Bool) :
    SanPath p nav =
      (if trimSpace p = [] then .error .emptyPath
       else if compPanic (goSplit '/' (trimSpace p)) then .error .panic
       else if pathFinal0 p = [] ∨ pathFinal0 p = gs (r".") ∨
           pathFinal0 p = gs (r"/") then .error .emptySanitizedPath
       else if (pathNav p nav (pathFinal0 p)).length > 4096 then
         .error .pathTooLong
       else .ok (if !HasFileExtension (goBase (pathNav p nav (pathFinal0 p)))
         then pathNav p nav (pathFinal0 p) ++ ['/']
         else pathNav p nav (pathFinal0 p))) := by
  unfold SanPath pathNav pathFinal0 pathRel
  rfl

set_option maxHeartbeats 1000000 in
theorem SanPath_errors {p : GoStr} {nav : Bool} {e : Err}
    (h : SanPath p nav = .error e) :
    e = .emptyPath ∨ e = .emptySanitizedPath ∨ e = .pathTooLong ∨
      e = .panic := by
  rw [SanPath_eq] at h
  split at h
  · injection h with h1
    exact Or.inl h1.symm
  split at h
  · injection h with h1
    exact Or.inr (Or.inr (Or.inr h1.symm))
  split at h
  · injection h with h1
    exact Or.inr (Or.inl h1.symm)
  split at h
  · injection h with h1
    exact Or.inr (Or.inr (Or.inl h1.symm))
  · exact absurd h (by simp)

/-! ## The 4097-rune `SanPath` output -/

theorem enumFrom_filterMap_id {α : Type} {f : Nat × α → Option α} :
    ∀ (l : List α) (n : Nat),
      (∀ i x, (i, x) ∈ l.enumFrom n → f (i, x) = some x) →
      (l.enumFrom n).filterMap f = l := by
  intro l
  induction l with
  | nil => intro n h; rfl
  | cons a as ih =>
    intro n h
    rw [List.enumFrom_cons, List.filterMap_cons, h n a (by simp),
      ih (n + 1) (fun i x hx => h i x (by simp [hx]))]

theorem keptComps_all_dir {comps : List GoStr}
    (h : ∀ q ∈ comps, q ≠ [] ∧ q ≠ gs (r".") ∧ q ≠ gs (r"..") ∧
      HasFileExtension q = false ∧ DirName q = .ok q) :
    keptComps comps = comps := by
  unfold keptComps
  show (comps.enumFrom 0).filterMap _ = comps
  apply enumFrom_filterMap_id
  intro i x hx
  have hmem : x ∈ comps := by
    have h2 := List.mem_enumFrom hx
    rw [h2.2.2]
    exact List.getElem_mem _
  obtain ⟨h1, h2, h3, h4, h5⟩ := h x hmem
  simp only []
  rw [if_neg h1, if_neg (by rw [not_or]; exact ⟨h2, h3⟩),
    if_neg (by rw [not_and]; intro hcon; simp [h4]), h5]
  rfl

theorem compPanic_all_dir {comps : List GoStr}
    (h : ∀ q ∈ comps, q ≠ [] ∧ q ≠ gs (r".") ∧ q ≠ gs (r"..") ∧
      HasFileExtension q = false ∧ DirName q = .ok q) :
    compPanic comps = false := by
  unfold compPanic
  show (comps.enumFrom 0).any _ = false
  rw [List.any_eq_false]
  intro ic hic
  obtain ⟨i, x⟩ := ic
  have hmem : x ∈ comps := by
    have h2 := List.mem_enumFrom hic
    rw [h2.2.2]
    exact List.getElem_mem _
  obtain ⟨h1, h2, h3, h4, h5⟩ := h x hmem
  simp only []
  rw [if_neg (by rw [not_and]; intro hcon; simp [h4]), h5]
  simp

theorem len_inter_rep :
    ∀ k, ((gs (r"/")).intercalate
      (List.replicate (k + 1) bigComp)).length = (k + 1) * 240 + k := by
  intro k
  induction k with
  | zero =>
    rw [List.replicate_succ]
    show ((gs (r"/")).intercalate [bigComp]).length = _
    rw [intercalate_single]
    unfold bigComp
    rw [List.length_replicate]
  | succ k ih =>
    rw [List.replicate_succ] at ih ⊢
    rw [gs_slash] at ih ⊢
    rw [List.replicate_succ, intercalate_cons_cons, List.length_append,
      List.length_append, ih]
    unfold bigComp
    rw [List.length_replicate]
    simp only [List.length_singleton]
    ring

theorem bigComp_facts : bigComp ≠ [] ∧ ('/' : Char) ∉ bigComp ∧
    bigComp ≠ gs (r".") ∧ bigComp ≠ gs (r"..") ∧
    HasFileExtension bigComp = false ∧ DirName bigComp = .ok bigComp :=
  ⟨by decide, by decide, by decide, by decide, by decide, by decide⟩

theorem replicate_bigComp_plain : ∀ q ∈ List.replicate 17 bigComp,
    q ≠ [] ∧ ('/' : Char) ∉ q ∧ q ≠ gs (r".") ∧ q ≠ gs (r"..") := by
  intro q hq
  rw [List.eq_of_mem_replicate hq]
  exact ⟨bigComp_facts.1, bigComp_facts.2.1, bigComp_facts.2.2.1,
    bigComp_facts.2.2.2.1⟩

theorem trimSpace_bigPath : trimSpace bigPath = bigPath := by
  apply goTrim_eq_self_of_none
  intro c hc
  unfold bigPath at hc
  rw [gs_slash] at hc
  rcases mem_intercalate hc with h | ⟨part, hp, hcp⟩
  · subst h; decide
  · rw [List.eq_of_mem_replicate hp] at hcp
    unfold bigComp at hcp
    rw [List.mem_replicate] at hcp
    rw [hcp.2]
    decide

theorem goSplit_bigPath : goSplit '/' bigPath = List.replicate 17 bigComp := by
  unfold bigPath
  exact goSplit_intercalate (by simp)
    (fun q hq => (replicate_bigComp_plain q hq).2.1)

theorem keptComps_bigPath :
    keptComps (List.replicate 17 bigComp) = List.replicate 17 bigComp := by
  apply keptComps_all_dir
  intro q hq
  rw [List.eq_of_mem_replicate hq]
  obtain ⟨f1, f2, f3, f4, f5, f6⟩ := bigComp_facts
  exact ⟨f1, f3, f4, f5, f6⟩

theorem compPanic_bigPath :
    compPanic (List.replicate 17 bigComp) = false := by
  apply compPanic_all_dir
  intro q hq
  rw [List.eq_of_mem_replicate hq]
  obtain ⟨f1, f2, f3, f4, f5, f6⟩ := bigComp_facts
  exact ⟨f1, f3, f4, f5, f6⟩

theorem pathClean_bigPath : pathClean bigPath = bigPath := by
  unfold bigPath
  exact pathClean_plain (by simp) replicate_bigComp_plain

theorem goJoin_bigPath : goJoin (List.replicate 17 bigComp) = bigPath := by
  have hdw : (List.replicate 17 bigComp).dropWhile (fun e => e = []) =
      bigComp :: List.replicate 16 bigComp := by
    rw [show List.replicate 17 bigComp = bigComp :: List.replicate 16 bigComp
      from rfl]
    rw [List.dropWhile_cons, if_neg (by simp [bigComp_facts.1])]
  rw [goJoin_eq hdw]
  rw [show bigComp :: List.replicate 16 bigComp = List.replicate 17 bigComp
    from rfl]
  exact pathClean_bigPath

theorem bigPath_length : bigPath.length = 4096 := by
  unfold bigPath
  have h := len_inter_rep 16
  norm_num at h
  exact h

theorem goBase_bigPath : goBase bigPath = bigComp := by
  unfold bigPath
  rw [show List.replicate 17 bigComp = List.replicate 16 bigComp ++ [bigComp]
    from by rw [← List.replicate_succ']]
  rw [gs_slash, intercalate_append_last bigComp (by simp)]
  exact goBase_plain _ bigComp_facts.1 bigComp_facts.2.1

theorem bigPath_head : bigPath.head? = some 'a' := by
  unfold bigPath
  rw [gs_slash]
  rw [show List.replicate 17 bigComp = bigComp :: List.replicate 16 bigComp
    from rfl]
  rw [intercalate_head? _ bigComp_facts.1]
  rfl

theorem bigPath_ne_lens : bigPath ≠ [] ∧ bigPath ≠ gs (r".") ∧
    bigPath ≠ gs (r"/") := by
  refine ⟨?_, ?_, ?_⟩ <;>
    (intro hcon
     have hl := congrArg List.length hcon
     rw [bigPath_length] at hl
     simp [gs_dot, gs_slash] at hl)

theorem pathRel_bigPath : pathRel bigPath = bigPath := by
  unfold pathRel
  rw [trimSpace_bigPath, goSplit_bigPath, keptComps_bigPath, goJoin_bigPath,
    pathClean_bigPath, if_neg bigPath_ne_lens.2.1]

theorem pathFinal0_bigPath : pathFinal0 bigPath = bigPath := by
  unfold pathFinal0
  rw [trimSpace_bigPath, pathRel_bigPath]
  rw [if_neg ?_]
  intro hcon
  obtain ⟨t, ht⟩ := List.isPrefixOf_iff_prefix.mp hcon
  have hh : bigPath.head? = some '/' := by
    rw [← ht, gs_slash]
    rfl
  rw [bigPath_head] at hh
  injection hh with hh2
  exact absurd hh2 (by decide)

theorem SanPath_bigPath : SanPath bigPath false = .ok (bigPath ++ ['/']) := by
  have hF : ¬((false : Bool) = true) := by simp
  rw [SanPath_eq, trimSpace_bigPath, goSplit_bigPath, compPanic_bigPath,
    pathFinal0_bigPath, if_neg bigPath_ne_lens.1, if_neg hF, if_neg (by
      rw [not_or, not_or]
      exact ⟨bigPath_ne_lens.1, bigPath_ne_lens.2.1, bigPath_ne_lens.2.2⟩)]
  rw [show pathNav bigPath false bigPath = bigPath from rfl]
  rw [if_neg (by rw [bigPath_length]; omega), goBase_bigPath,
    if_pos (show (!HasFileExtension bigComp) = true by decide)]

/-! ## Claim theorems -/

/-- C1 (counterexample): the claim fails on the code.  `DirName` performs no
reserved-name check at all: `DirName "CON"` succeeds returning `"CON"`,
whose extension-stripped base is `"CON"` itself, a reserved device name.
`FileName` checks only the raw base before character stripping, so
`FileName "CO~N"` also succeeds returning the reserved name `"CON"`. -/
theorem reservedName_check_bypassed :
    DirName (gs (r"CON")) = .ok (gs (r"CON")) ∧
    FileName (gs (r"CO~N")) = .ok (gs (r"CON")) ∧
    goExt (gs (r"CON")) = [] ∧
    (reservedNames.any fun s => equalFold (gs (r"CON")) s) = true := by
  refine ⟨by decide, by decide, by decide, by decide⟩

set_option maxHeartbeats 2000000 in
/-- C1 (amended): for every input on which `FileName` succeeds, the raw
whitespace-trimmed extension-stripped base of the *input* is not,
case-insensitively, a reserved device name.  (The output's base can still
be reserved when character stripping creates one, and `DirName` performs
no reserved-name check at all.) -/
theorem fileName_rejects_reserved_raw_base :
    ∀ x y : GoStr, FileName x = .ok y →
      (reservedNames.any fun s =>
        equalFold (trimSpace (goTrimSuffix x (goExt x))) s) = false := by
  intro x y h
  unfold FileName at h
  simp only [] at h
  split at h
  · exact absurd h (by simp)
  split at h
  · exact absurd h (by simp)
  split at h
  · exact absurd h (by simp)
  next hres =>
  simpa using hres

/-- Witness for the amended C1 theorem at the input `"a.txt"`. -/
theorem fileName_rejects_reserved_raw_base_witness :
    (reservedNames.any fun s =>
      equalFold (trimSpace (goTrimSuffix (gs (r"a.txt"))
        (goExt (gs (r"a.txt"))))) s) = false :=
  fileName_rejects_reserved_raw_base (gs (r"a.txt")) (gs (r"a.txt")) (by decide)

/-- C4: the claim is right and the code is wrong.  When the sanitized
extension itself exceeds 255 runes, `FileName`'s truncation step slices
`filename[:255-len(ext)]` with a negative index and panics at runtime
(slice bounds out of range) instead of truncating safely: here on the
input `"b."` followed by 255 `'a'` runes. -/
theorem fileName_truncation_panics :
    FileName (gs (r"b.") ++ List.replicate 255 'a') = .error .panic := by
  decide

/-- C7: navigation markers survive component scanning, cleaning resolves
`path/..`, and exactly one leading `./` is reattached iff `allowNav`:
`Path("./path/../to/file.txt", true) = "./to/file.txt"` and
`Path("./path/../to/file.txt", false) = "to/file.txt"`. -/
theorem sanPath_navigation_examples :
    SanPath (gs (r"./path/../to/file.txt")) true = .ok (gs (r"./to/file.txt")) ∧
    SanPath (gs (r"./path/../to/file.txt")) false = .ok (gs (r"to/file.txt")) := by
  refine ⟨by decide, by decide⟩

/-- C9: `FileName` on 300 `'a'` runes followed by `".txt"` succeeds with
exactly 255 runes: 251 `'a'`s plus the fully preserved extension. -/
theorem fileName_length_cap_example :
    FileName (List.replicate 300 'a' ++ gs (r".txt")) =
      .ok (List.replicate 251 'a' ++ gs (r".txt")) ∧
    (List.replicate 251 'a' ++ gs (r".txt")).length = 255 := by
  refine ⟨by decide, by decide⟩

/-- C10: for every input of one or more dots (including the navigation
markers `.` and `..`), `DirName` succeeds returning exactly `"dir"`: the
hidden-directory rewrite produces `"dir_"` and the trailing underscore is
trimmed away. -/
theorem dirName_all_dots :
    ∀ n, 1 ≤ n → DirName (List.replicate n '.') = .ok (gs (r"dir")) := by
  intro n hn
  obtain ⟨m, rfl⟩ : ∃ m, n = m + 1 := ⟨n - 1, by omega⟩
  have hts : trimSpace (List.replicate (m + 1) '.') =
      List.replicate (m + 1) '.' := by
    apply goTrim_eq_self_of_none
    intro c hc
    rw [List.mem_replicate] at hc
    rw [hc.2]
    decide
  have htc : trimChar ['/', Char.ofNat 92] (List.replicate (m + 1) '.') =
      List.replicate (m + 1) '.' := by
    apply goTrim_eq_self_of_none
    intro c hc
    rw [List.mem_replicate] at hc
    rw [hc.2]
    decide
  have hne : List.replicate (m + 1) '.' ≠ [] := by simp
  have hpre : (gs (r".")).isPrefixOf (List.replicate (m + 1) '.') = true := by
    rw [gs_dot, List.isPrefixOf_iff_prefix, List.replicate_succ]
    exact ⟨List.replicate m '.', rfl⟩
  have hdrop : (List.replicate (m + 1) '.').dropWhile (fun c => c = '.') =
      [] := by
    rw [List.dropWhile_eq_nil_iff]
    intro x hx
    rw [List.mem_replicate] at hx
    simp [hx.2]
  unfold DirName
  simp only []
  rw [hts, htc, if_neg hne, if_pos hpre, hdrop, List.append_nil]
  decide

/-- Witness for C10 at `n = 2` (the `..` navigation marker). -/
theorem dirName_all_dots_witness :
    DirName (List.replicate 2 '.') = .ok (gs (r"dir")) :=
  dirName_all_dots 2 (by decide)

/-- C2 (counterexample): idempotence fails for `FileName`, `Path` and
`DirName`.  `FileName "CO~N"` succeeds with `"CON"`, but re-sanitizing
that output fails with the reserved-name error; `Path` inherits the same
failure through its final component; and `DirName`'s 255-rune truncation
of [[dcx]] ends in an underscore which a second pass trims away, so
`DirName` maps its own output [[dcy]] to the different string [[dcz]]. -/
theorem fileName_dirName_path_not_idempotent :
    FileName (gs (r"CO~N")) = .ok (gs (r"CON")) ∧
    FileName (gs (r"CON")) = .error (.reservedName (gs (r"CON"))) ∧
    SanPath (gs (r"CO~N.txt")) false = .ok (gs (r"CON.txt")) ∧
    SanPath (gs (r"CON.txt")) false = .error .emptySanitizedPath ∧
    DirName dcx = .ok dcy ∧
    DirName dcy = .ok dcz ∧
    dcy ≠ dcz := by
  refine ⟨by decide, by decide, by decide, by decide, by decide, by decide,
    by decide⟩

/-- C2 (amended): idempotence holds for the `String`, `Hostname`,
`Extension` and `Url` sanitizers: whenever a call succeeds with output
`y`, applying the same sanitizer to `y` succeeds and returns `y` again.
(It fails for `FileName`, `DirName` and `Path`.) -/
theorem core_sanitizers_idempotent :
    (∀ x y : GoStr, SanString x = .ok y → SanString y = .ok y) ∧
    (∀ x y : GoStr, Hostname x = .ok y → Hostname y = .ok y) ∧
    (∀ x y : GoStr, Extension x = .ok y → Extension y = .ok y) ∧
    (∀ (x y : GoStr) (rp : Bool), Url x rp = .ok y → Url y rp = .ok y) := by
  refine ⟨?_, ?_, ?_, ?_⟩
  · intro x y h
    exact SanString_idem h
  · intro x y h
    exact Hostname_idem h
  · intro x y h
    exact Extension_idem h
  · intro x y rp h
    exact Url_idem h

/-- Witness for the amended C2 theorem: `String` maps `"a<b"` to `"a b"`,
and re-sanitizing `"a b"` returns it unchanged. -/
theorem core_sanitizers_idempotent_witness :
    SanString (gs (r"a b")) = .ok (gs (r"a b")) :=
  core_sanitizers_idempotent.1 (gs (r"a<b")) (gs (r"a b")) (by decide)

/-- C3 (counterexample): a successful `Path` result of 4097 runes.  The
input [[bigPath]] (seventeen 240-rune components, 4096 runes total) passes
the 4096 length check, and the trailing-separator step then appends one
more rune, so the returned path has 4097 runes, exceeding the declared
4096 maximum. -/
theorem sanPath_output_length_4097 :
    SanPath bigPath false = .ok (bigPath ++ ['/']) ∧
    (bigPath ++ ['/']).length = 4097 := by
  refine ⟨SanPath_bigPath, ?_⟩
  rw [List.length_append, bigPath_length]
  rfl

/-- C3 (amended): every successful `FileName` or `DirName` result has at
most 255 runes, including after truncation; every successful `Path`
result has at most 4097 runes — the 4096 length check runs before the
trailing separator is appended, so a directory result can reach 4097. -/
theorem sanitizer_length_caps :
    (∀ x y : GoStr, FileName x = .ok y → y.length ≤ 255) ∧
    (∀ x y : GoStr, DirName x = .ok y → y.length ≤ 255) ∧
    (∀ (p : GoStr) (nav : Bool) (y : GoStr), SanPath p nav = .ok y →
      y.length ≤ 4097) := by
  refine ⟨?_, ?_, ?_⟩
  · intro x y h
    exact (FileName_ok_facts h).2.1
  · intro x y h
    exact (DirName_ok_facts h).2.1
  · intro p nav y h
    obtain ⟨f, hy, -, -, hlen, -⟩ := SanPath_ok_facts h
    subst hy
    split
    · rw [List.length_append]
      simp
      omega
    · omega

/-- Witness for the amended C3 theorem at `FileName "a.txt"`. -/
theorem sanitizer_length_caps_witness : (gs (r"a.txt")).length ≤ 255 :=
  sanitizer_length_caps.1 (gs (r"a.txt")) (gs (r"a.txt")) (by decide)

/-- C5 (counterexample): not every failing component is dropped.  The
loop's `continue` catches only *error returns*; a component on which the
sanitizer call panics at runtime aborts the whole `Path` call instead of
being omitted.  On `"dir/b."` followed by 255 `'a'` runes the final
component's `FileName` call panics (negative-index slice), so `Path`
panics — whereas the claim requires it to succeed from the surviving
component `"dir"` alone, which by itself yields `"dir/"`. -/
theorem sanPath_component_panic_propagates :
    SanPath (gs (r"dir/b.") ++ List.replicate 255 'a') false =
      .error .panic ∧
    SanPath (gs (r"dir")) false = .ok (gs (r"dir/")) := by
  refine ⟨by decide, by decide⟩

/-- C5 (amended): a failing component's *error return* never propagates
out of `Path` — every `Path` error is one of the three path-level errors
(empty input, empty sanitized result, too long) or a runtime panic
propagated from a component's `FileName` call, never a component
sanitizer error value — and error-failing components are omitted, the
call being computed from the survivors: `DirName "###"` fails, yet
`Path("###/abc", false)` succeeds as `"abc/"` with the component
dropped. -/
theorem sanPath_drops_failing_components :
    (∀ (p : GoStr) (nav : Bool) (e : Err), SanPath p nav = .error e →
      e = .emptyPath ∨ e = .emptySanitizedPath ∨ e = .pathTooLong ∨
        e = .panic) ∧
    DirName (gs (r"###")) = .error .emptySanitizedDirName ∧
    SanPath (gs (r"###/abc")) false = .ok (gs (r"abc/")) := by
  refine ⟨?_, by decide, by decide⟩
  intro p nav e h
  exact SanPath_errors h

/-- Witness for the amended C5's universally quantified part at
`Path("", false)`. -/
theorem sanPath_drops_failing_components_witness :
    Err.emptyPath = .emptyPath ∨ Err.emptyPath = .emptySanitizedPath ∨
      Err.emptyPath = .pathTooLong ∨ Err.emptyPath = .panic :=
  sanPath_drops_failing_components.1 (gs (r"")) false .emptyPath (by decide)

/-- C6: every successful `Path` result ends with a separator iff its final
component (its `Base`) has no recognized extension; in particular
`Path("path/to/dir", false) = "path/to/dir/"` and
`Path("path/to/file.txt", false) = "path/to/file.txt"`. -/
theorem sanPath_trailing_separator_iff :
    SanPath (gs (r"path/to/dir")) false = .ok (gs (r"path/to/dir/")) ∧
    SanPath (gs (r"path/to/file.txt")) false = .ok (gs (r"path/to/file.txt")) ∧
    ∀ (p : GoStr) (nav : Bool) (y : GoStr), SanPath p nav = .ok y →
      (y.getLast? = some '/' ↔ HasFileExtension (goBase y) = false) := by
  refine ⟨by decide, by decide, ?_⟩
  intro p nav y h
  obtain ⟨f, hy, hne, hlast, -, -⟩ := SanPath_ok_facts h
  by_cases hfe : HasFileExtension (goBase f)
  · rw [if_neg (by simp [hfe])] at hy
    subst hy
    constructor
    · intro hl
      exact absurd hl hlast
    · intro hfalse
      simp [hfalse] at hfe
  · have hfe2 : HasFileExtension (goBase f) = false := by simpa using hfe
    rw [if_pos (by simp [hfe2])] at hy
    subst hy
    constructor
    · intro _
      rw [goBase_append_slash hne]
      exact hfe2
    · intro _
      rw [List.getLast?_append]
      rfl

/-- Witness for C6's iff at the directory example. -/
theorem sanPath_trailing_separator_iff_witness :
    (gs (r"path/to/dir/")).getLast? = some '/' ↔
      HasFileExtension (goBase (gs (r"path/to/dir/"))) = false :=
  sanPath_trailing_separator_iff.2.2 (gs (r"path/to/dir")) false
    (gs (r"path/to/dir/")) (by decide)

/-- C8: no successful output of any of the seven sanitizers contains a
Unicode control character (Go `unicode.IsControl`, i.e. category Cc). -/
theorem sanitizer_outputs_control_free :
    (∀ x y : GoStr, SanString x = .ok y → ∀ c ∈ y, goIsControl c = false) ∧
    (∀ x y : GoStr, Hostname x = .ok y → ∀ c ∈ y, goIsControl c = false) ∧
    (∀ x y : GoStr, Extension x = .ok y → ∀ c ∈ y, goIsControl c = false) ∧
    (∀ x y : GoStr, FileName x = .ok y → ∀ c ∈ y, goIsControl c = false) ∧
    (∀ x y : GoStr, DirName x = .ok y → ∀ c ∈ y, goIsControl c = false) ∧
    (∀ (p : GoStr) (nav : Bool) (y : GoStr), SanPath p nav = .ok y →
      ∀ c ∈ y, goIsControl c = false) ∧
    (∀ (x : GoStr) (rp : Bool) (y : GoStr), Url x rp = .ok y →
      ∀ c ∈ y, goIsControl c = false) := by
  refine ⟨?_, ?_, ?_, ?_, ?_, ?_, ?_⟩
  · intro x y h c hc
    exact (SanString_chars h c hc).1
  · intro x y h c hc
    exact (SanString_chars (Hostname_ok h).1 c hc).1
  · intro x y h c hc
    obtain ⟨r, hy, -, -, hchars⟩ := Extension_ok_shape h
    subst hy
    rcases List.mem_cons.mp hc with h1 | h1
    · subst h1; decide
    · exact (extKeep_facts (hchars c h1).1).1
  · intro x y h c hc
    rcases (FileName_ok_facts h).2.2 c hc with hk | hk
    · exact (fnameKeep_facts hk).1
    · exact (extKeep_facts hk).1
  · intro x y h c hc
    exact (fnameKeep_facts ((DirName_ok_facts h).2.2 c hc)).1
  · intro p nav y h c hc
    obtain ⟨f, hy, -, -, -, hchars⟩ := SanPath_ok_facts h
    subst hy
    split at hc
    · rcases List.mem_append.mp hc with h1 | h1
      · exact hchars c h1
      · simp at h1
        subst h1
        decide
    · exact hchars c hc
  · intro x rp y h c hc
    obtain ⟨hy, -, -, -⟩ := Url_ok h
    rw [hy] at hc
    have h3 := List.of_mem_filter (mem_of_mem_goTrim hc)
    simpa using h3

/-- Witness for C8's `String` clause at `"a<b"`. -/
theorem sanitizer_outputs_control_free_witness : goIsControl 'a' = false :=
  sanitizer_outputs_control_free.1 (gs (r"a<b")) (gs (r"a b")) (by decide)
    'a' (by decide)
